import Mathlib

/-!
Verification of the pdf417 Rust library (src/src/ecc.rs, src/src/high_level.rs,
src/src/lib.rs, src/src/generators/pdf417.rs) against its natural-language
specification.  The Rust code is shallowly embedded: machine integers become
Nat with explicit wrap-around (% 2 ^ 64, % 2 ^ 16) where the Rust type can
overflow, in-place slice mutation becomes List.set, and Rust panics (assert!,
unreachable!, slice-index panics that our claims exercise) become Option.none.
The crate declares a module tables.rs that is not part of the sources provided;
the per-level ECC generator coefficient tables and the HL_TO_LL cluster table
live there, so the embedding is parameterized by those tables, and the only
concrete table values used (ECC level 0) are validated below against the
literal golden vectors of the tests in src/src/ecc.rs and
src/src/high_level.rs.
-/

namespace PDF417V

/-! ## Error correction (src/src/ecc.rs) -/

/-- Inner loop of generate_ecc_codewords (src/src/ecc.rs lines 66-70):
for i in (0..factors.len()).rev() the slot ecc[factors.len()-1-i] is
overwritten in place.  The argument cnt counts the iterations still to run;
the iteration with cnt = i+1 processes loop index i, so the first call with
cnt = factors.length processes i = factors.length - 1 first, exactly like the
Rust reversed range. -/
def eccInner (factors : List Nat) (t : Nat) : Nat → List Nat → List Nat
  | 0, ecc => ecc
  | i + 1, ecc =>
      let factor := (t * factors.getD i 0) % 929
      let d := if i > 0 then ecc.getD (factors.length - i) 0 else 0
      eccInner factors t i (ecc.set (factors.length - 1 - i) ((d + 929 - factor) % 929))

/-- One iteration of the outer data loop of generate_ecc_codewords
(src/src/ecc.rs lines 63-71): t = (cw + ecc[0]) % 929 followed by the inner
reversed loop. -/
def eccStep (factors : List Nat) (ecc : List Nat) (cw : Nat) : List Nat :=
  let t := (cw + ecc.getD 0 0) % 929
  eccInner factors t factors.length ecc

/-- generate_ecc_codewords (src/src/ecc.rs lines 59-78): split the buffer,
zero the ecc region, run the data loop, then replace every nonzero ecc entry
e by 929 - e.  The Rust function mutates the buffer in place; here the final
buffer contents are returned. -/
def generate_ecc_codewords (factors codewords : List Nat) : List Nat :=
  let data := codewords.take (codewords.length - factors.length)
  let ecc0 : List Nat := List.replicate factors.length 0
  let ecc1 := data.foldl (eccStep factors) ecc0
  data ++ ecc1.map (fun e => if e ≠ 0 then 929 - e else e)

/-- generate_ecc (src/src/ecc.rs lines 29-46).  The factor table selected by
the level is passed in as ecc_tab (tables.rs with ECC_L0 .. ECC_L8 is not in
the provided sources); none models the panic of the two assert! calls
(level <= 8, codewords.len() >= factors.len()). -/
def generate_ecc (ecc_tab : Nat → List Nat) (codewords : List Nat) (level : Nat) :
    Option (List Nat) :=
  if level ≤ 8 ∧ (ecc_tab level).length ≤ codewords.length then
    some (generate_ecc_codewords (ecc_tab level) codewords)
  else
    none

/-- Modelled from the spec: tables.rs (declared by src/src/lib.rs but absent
from the provided sources) holds the per-level generator coefficient tables;
for level 0 the table is the standard two-coefficient PDF417 generator
[27, 917].  The choice is validated against the literal golden vectors of
test_ecc_l0 in src/src/ecc.rs and test_seal_normal in src/src/high_level.rs
(theorems eccL0_golden and seal_golden below). -/
def ECC_L0 : List Nat := [27, 917]

/-- An ECC-table environment that is only trusted at level 0. -/
def eccTab0 : Nat → List Nat
  | 0 => ECC_L0
  | _ => []

/-- Validation of the modelled level-0 table against the literal expected
output of test_ecc_l0 in src/src/ecc.rs: the 16 data codewords produce ECC
[156, 765]. -/
theorem eccL0_golden :
    generate_ecc eccTab0
      [16, 902, 1, 278, 827, 900, 295, 902, 2, 326, 823, 544, 900, 149, 900, 900, 0, 0] 0
    = some [16, 902, 1, 278, 827, 900, 295, 902, 2, 326, 823, 544, 900, 149, 900, 900,
            156, 765] := by
  decide

/-! ### Claim-side ECC definitions (C1)

The claim describes the inner pass as: for i from N-1 down to 0 set
ecc[N-1-i] = ((ecc[N-i] if i>0 else 0) + 929 - (t*factors[i] mod 929)) mod 929.
Substituting j = N-1-i, the pass reads slot j+1 and writes slot j, and every
read happens before that slot is written (reads move strictly ahead of the
write front), so the pass is equivalent to the simultaneous update below,
which is the claim-side rendering used for the refinement theorem. -/

/-- Claim-side simultaneous form of one data iteration. -/
def eccStepSpec (factors : List Nat) (ecc : List Nat) (cw : Nat) : List Nat :=
  let N := factors.length
  let t := (cw + ecc.getD 0 0) % 929
  (List.range N).map (fun j =>
    ((if j < N - 1 then ecc.getD (j + 1) 0 else 0) + 929
      - (t * factors.getD (N - 1 - j) 0) % 929) % 929)

/-- Claim-side ECC region: zero-init, one pass per data codeword, final
negation of nonzero entries. -/
def eccRegionSpec (factors data : List Nat) : List Nat :=
  (data.foldl (eccStepSpec factors) (List.replicate factors.length 0)).map
    (fun e => if e ≠ 0 then 929 - e else e)

end PDF417V

namespace PDF417V

/-- Index computation for List.set, packaged for the ECC proofs. -/
theorem getD_set_split (v m n : Nat) (l : List Nat) :
    (l.set m v).getD n 0 = if m = n ∧ m < l.length then v else l.getD n 0 := by
  by_cases h : m = n
  · subst h
    by_cases hm : m < l.length
    · simp [List.getD_eq_getElem _ _ (by simpa using hm), List.getElem_set_self, hm]
    · rw [List.set_eq_of_length_le (Nat.le_of_not_lt hm)]
      simp [hm]
  · simp only [h, false_and, if_false]
    by_cases hn : n < l.length
    · rw [List.getD_eq_getElem _ _ (by simpa using hn),
        List.getD_eq_getElem _ _ (by simpa using hn), List.getElem_set_ne h]
    · rw [List.getD_eq_default _ _ (by simpa using Nat.le_of_not_lt hn),
        List.getD_eq_default _ _ (by simpa using Nat.le_of_not_lt hn)]

theorem eccInner_length (factors : List Nat) (t : Nat) :
    ∀ (c : Nat) (ecc : List Nat), (eccInner factors t c ecc).length = ecc.length := by
  intro c
  induction c with
  | zero => intro ecc; rfl
  | succ i ih => intro ecc; rw [eccInner, ih]; simp

/-- The sequential in-place inner pass reads slot j+1 while writing slot j, so
every read sees the pre-pass value; after c iterations exactly the slots
[N-c, N) have been rewritten. -/
theorem eccInner_getD (factors : List Nat) (t : Nat) (c : Nat) :
    ∀ (ecc : List Nat), ecc.length = factors.length → c ≤ factors.length →
    ∀ j, (eccInner factors t c ecc).getD j 0 =
      if factors.length - c ≤ j ∧ j < factors.length then
        ((if j < factors.length - 1 then ecc.getD (j + 1) 0 else 0) + 929
          - (t * factors.getD (factors.length - 1 - j) 0) % 929) % 929
      else ecc.getD j 0 := by
  induction c with
  | zero =>
    intro ecc _ _ j
    rw [eccInner, if_neg (by omega)]
  | succ i ih =>
    intro ecc hlen hc j
    rw [eccInner]
    set N := factors.length with hN
    set v := ((if i > 0 then ecc.getD (N - i) 0 else 0) + 929
      - (t * factors.getD i 0) % 929) % 929 with hv
    have hlen' : (ecc.set (N - 1 - i) v).length = N := by simp [hlen]
    rw [ih (ecc.set (N - 1 - i) v) hlen' (by omega) j]
    by_cases h1 : N - i ≤ j ∧ j < N
    · have hcond : N - (i + 1) ≤ j ∧ j < N := by omega
      rw [if_pos h1, if_pos hcond]
      have hne : ¬ (N - 1 - i = j + 1 ∧ N - 1 - i < ecc.length) := by
        intro hh; omega
      rw [getD_set_split, if_neg hne]
    · by_cases h2 : j = N - 1 - i
      · have hcond : N - (i + 1) ≤ j ∧ j < N := by omega
        rw [if_neg h1, if_pos hcond]
        rw [getD_set_split, if_pos ⟨h2.symm, by omega⟩]
        have e3 : N - 1 - j = i := by omega
        have e1 : (if j < N - 1 then ecc.getD (j + 1) 0 else 0)
            = (if i > 0 then ecc.getD (N - i) 0 else 0) := by
          by_cases hi : 0 < i
          · rw [if_pos (by omega : j < N - 1), if_pos hi]
            congr 1
            omega
          · rw [if_neg (by omega), if_neg (by omega)]
        rw [hv, e3, e1]
      · have hcond : ¬ (N - (i + 1) ≤ j ∧ j < N) := by omega
        rw [if_neg h1, if_neg hcond]
        rw [getD_set_split, if_neg (by intro hh; exact h2 hh.1.symm)]

theorem eccStep_length (factors ecc : List Nat) (cw : Nat) :
    (eccStep factors ecc cw).length = ecc.length := by
  rw [eccStep]; exact eccInner_length _ _ _ _

theorem eccStepSpec_length (factors ecc : List Nat) (cw : Nat) :
    (eccStepSpec factors ecc cw).length = factors.length := by
  simp [eccStepSpec]

/-- One sequential data iteration equals its claim-side simultaneous form. -/
theorem eccStep_eq_spec (factors ecc : List Nat) (cw : Nat)
    (hlen : ecc.length = factors.length) :
    eccStep factors ecc cw = eccStepSpec factors ecc cw := by
  have hl1 : (eccStep factors ecc cw).length = factors.length := by
    rw [eccStep_length, hlen]
  have hl2 : (eccStepSpec factors ecc cw).length = factors.length :=
    eccStepSpec_length _ _ _
  apply List.ext_getElem (by omega)
  intro j hj1 hj2
  have hj : j < factors.length := by omega
  have hcond : factors.length - factors.length ≤ j ∧ j < factors.length := by omega
  rw [← List.getD_eq_getElem _ 0 hj1, ← List.getD_eq_getElem _ 0 hj2]
  rw [eccStep]
  rw [eccInner_getD factors ((cw + ecc.getD 0 0) % 929) factors.length ecc hlen
    (Nat.le_refl _) j, if_pos hcond]
  rw [List.getD_eq_getElem _ 0 hj2]
  simp only [eccStepSpec, List.getElem_map, List.getElem_range]

theorem foldl_eccStep_eq_spec (factors : List Nat) :
    ∀ (data : List Nat) (ecc : List Nat), ecc.length = factors.length →
    data.foldl (eccStep factors) ecc = data.foldl (eccStepSpec factors) ecc := by
  intro data
  induction data with
  | nil => intro ecc _; rfl
  | cons cw rest ih =>
    intro ecc hlen
    simp only [List.foldl_cons]
    rw [eccStep_eq_spec factors ecc cw hlen]
    exact ih _ (eccStepSpec_length _ _ _)

/-- C1: generate_ecc(codewords, level), for every level in [0,8] and every
buffer of length len >= 2^(level+1), splits the buffer into
data = codewords[..len-N] and ecc = codewords[len-N..] with N = 2^(level+1),
zero-initializes the ecc region, then for each data codeword cw in order
computes t = (cw + ecc[0]) mod 929 and for i from N-1 down to 0 sets
ecc[N-1-i] = ((ecc[N-i] if i>0 else 0) + 929 - (t*factors[i] mod 929)) mod 929
(reading each slot before this pass rewrites it), finally replaces every
nonzero ecc entry e by 929 - e; the data region is left unchanged.  The
per-level factor table is a parameter (tables.rs is not among the provided
sources); its length is 2^(level+1), as pinned by ecc_count and the golden
tests of src/src/ecc.rs. -/
theorem spec_c1 (ecc_tab : Nat → List Nat) (level : Nat) (codewords : List Nat)
    (hlev : level ≤ 8) (hfac : (ecc_tab level).length = 2 ^ (level + 1))
    (hlen : 2 ^ (level + 1) ≤ codewords.length) :
    generate_ecc ecc_tab codewords level =
      some (codewords.take (codewords.length - 2 ^ (level + 1))
        ++ eccRegionSpec (ecc_tab level)
             (codewords.take (codewords.length - 2 ^ (level + 1)))) ∧
    Option.map (List.take (codewords.length - 2 ^ (level + 1)))
        (generate_ecc ecc_tab codewords level)
      = some (codewords.take (codewords.length - 2 ^ (level + 1))) := by
  have hle : (ecc_tab level).length ≤ codewords.length := by omega
  have hmain : generate_ecc ecc_tab codewords level =
      some (codewords.take (codewords.length - 2 ^ (level + 1))
        ++ eccRegionSpec (ecc_tab level)
             (codewords.take (codewords.length - 2 ^ (level + 1)))) := by
    rw [generate_ecc, if_pos ⟨hlev, hle⟩]
    rw [generate_ecc_codewords, eccRegionSpec]
    rw [hfac]
    rw [foldl_eccStep_eq_spec (ecc_tab level) _ _ (by simp [hfac])]
  refine ⟨hmain, ?_⟩
  rw [hmain, Option.map_some']
  congr 1
  exact List.take_left' (by simp)

/-- Witness for spec_c1 at level 0 on a concrete 4-codeword buffer. -/
theorem spec_c1_witness :
    generate_ecc eccTab0 [1, 2, 3, 4] 0 =
      some (([1, 2, 3, 4] : List Nat).take (([1, 2, 3, 4] : List Nat).length - 2 ^ (0 + 1))
        ++ eccRegionSpec (eccTab0 0)
             (([1, 2, 3, 4] : List Nat).take (([1, 2, 3, 4] : List Nat).length - 2 ^ (0 + 1)))) ∧
    Option.map (List.take (([1, 2, 3, 4] : List Nat).length - 2 ^ (0 + 1)))
        (generate_ecc eccTab0 [1, 2, 3, 4] 0)
      = some (([1, 2, 3, 4] : List Nat).take (([1, 2, 3, 4] : List Nat).length - 2 ^ (0 + 1))) :=
  spec_c1 eccTab0 0 [1, 2, 3, 4] (by decide) (by decide) (by decide)

end PDF417V

namespace PDF417V

/-! ## The high-level encoder (src/src/high_level.rs)

PDF417Encoder holds a mutable u16 slice, a cursor, the micro flag and the
last compaction mode (0 Upper, 1 Lower, 2 Mixed, 3 Punctuation, 4 Numeric,
5 Byte).  Writes through an index beyond the slice length panic in Rust; the
embedding models them with List.set, which leaves the list unchanged, and the
theorems below carry explicit capacity hypotheses wherever a claim depends on
the write landing. -/

structure Encoder where
  storage : List Nat
  used : Nat
  micro : Bool
  last_mode : Nat
  deriving Repr, DecidableEq

/-- PDF417Encoder::new (src/src/high_level.rs lines 104-113).  The assert on
a nonempty storage is carried as a hypothesis by the theorems that need it;
micro encoders start at cursor 0 in Byte mode, full encoders reserve slot 0
for the length indicator and start in Upper mode. -/
def newEncoder (storage : List Nat) (micro : Bool) : Encoder :=
  if micro then
    { storage := storage, used := 0, micro := micro, last_mode := 5 }
  else
    { storage := storage, used := 1, micro := micro, last_mode := 0 }

/-- The u64 digit-counting loop of append_num (src/src/high_level.rs lines
158-165): digits counts the divisions by 10 until the value is exhausted and
p1 accumulates 5^digits (with u64 wrap-around).  The fuel bounds the number
of iterations; 64 iterations always suffice for a u64 (at most 20 decimal
digits) and the U160 numbers of append_ascii (at most 49 digits). -/
def digitsP1 : Nat → Nat → Nat → Nat → Nat × Nat
  | 0, _, p1, digits => (digits, p1)
  | fuel + 1, val, p1, digits =>
      if val = 0 then (digits, p1)
      else digitsP1 fuel (val / 10) ((p1 + (p1 <<< 2)) % 2 ^ 64) (digits + 1)

/-- The base-900 write-back loop shared by append_num and the numeric path of
append_ascii: while n > 0 write n % 900 at storage[pos + nb - count - 1] and
continue with n / 900.  The fuel bounds the iterations; 64 always suffice
(any value below 2^160 has at most 54 base-900 digits). -/
def b900Write : Nat → List Nat → Nat → Nat → Nat → Nat → List Nat
  | 0, st, _, _, _, _ => st
  | fuel + 1, st, pos, nb, count, n =>
      if n = 0 then st
      else b900Write fuel (st.set (pos + nb - count - 1) (n % 900)) pos nb (count + 1) (n / 900)

/-- PDF417Encoder::append_num (src/src/high_level.rs lines 145-182), with u64
arithmetic modelled by explicit % 2^64 on the shift and the addition (the two
operations that can wrap for large n). -/
def append_num (e : Encoder) (n : Nat) : Encoder :=
  let st0 := if e.last_mode ≠ 4 then e.storage.set e.used 902 else e.storage
  let used0 := if e.last_mode ≠ 4 then e.used + 1 else e.used
  let mode0 := if e.last_mode ≠ 4 then 4 else e.last_mode
  let dp := digitsP1 64 n 1 0
  let p1 := (dp.2 <<< dp.1) % 2 ^ 64
  let n2 := (n + p1) % 2 ^ 64
  let nb := dp.1 / 3 + 1
  { storage := b900Write 64 st0 used0 nb 0 n2, used := used0 + nb,
    micro := e.micro, last_mode := mode0 }

/-- The unrolled inner five-codeword write of append_bytes (src/src/high_level.rs
lines 201-206): for n in 0..5, storage[i + 4 - n] receives s % 900 and s is
divided by 900. -/
def writeFive (st : List Nat) (i : Nat) (s : Nat) : List Nat :=
  (((((st.set (i + 4) (s % 900)).set (i + 3)
      (s / 900 % 900)).set (i + 2)
      (s / 900 / 900 % 900)).set (i + 1)
      (s / 900 / 900 / 900 % 900)).set i
      (s / 900 / 900 / 900 / 900 % 900))

/-- The six-byte packing loop of append_bytes (src/src/high_level.rs lines
195-210): as long as six bytes remain, fold them big-endian into a 48-bit
value and write five base-900 codewords.  Returns the storage, the cursor and
the remaining bytes. -/
def packSix (st : List Nat) (i : Nat) : List Nat → List Nat × Nat × List Nat
  | b0 :: b1 :: b2 :: b3 :: b4 :: b5 :: rest =>
      let s := (((((((((b0 <<< 8) + b1) <<< 8) + b2) <<< 8) + b3) <<< 8) + b4) <<< 8) + b5
      packSix (writeFive st i s) (i + 5) rest
  | rest => (st, i, rest)

/-- The trailing loop of append_bytes (lines 222-226): each remaining byte is
written as its own codeword. -/
def writeRest (st : List Nat) (i : Nat) : List Nat → List Nat × Nat
  | [] => (st, i)
  | b :: rest => writeRest (st.set i b) (i + 1) rest

/-- PDF417Encoder::append_bytes (src/src/high_level.rs lines 185-230). -/
def append_bytes (e : Encoder) (bytes : List Nat) : Encoder :=
  if bytes.length > 1 then
    let latch := if bytes.length % 6 = 0 then 924 else 901
    let p := packSix (e.storage.set e.used latch) (e.used + 1) bytes
    let w := writeRest p.1 p.2.1 p.2.2
    { storage := w.1, used := w.2, micro := e.micro, last_mode := 5 }
  else
    let st := if e.last_mode < 4 then e.storage.set e.used 913
              else e.storage.set e.used 901
    let mode := if e.last_mode < 4 then e.last_mode else 5
    let w := writeRest st (e.used + 1) bytes
    { storage := w.1, used := w.2, micro := e.micro, last_mode := mode }

/-- PDF417Encoder::append_utf8 (src/src/high_level.rs lines 395-401): ECI
code-page codeword 927, code page 26 (UTF-8), then the byte segment. -/
def append_utf8 (e : Encoder) (bytes : List Nat) : Encoder :=
  let st := (e.storage.set e.used 927).set (e.used + 1) 26
  append_bytes { storage := st, used := e.used + 2, micro := e.micro,
                 last_mode := e.last_mode } bytes

/-- ecc_count (src/src/ecc.rs lines 19-22) without its assert (callers below
guard the level range explicitly). -/
def eccCount (level : Nat) : Nat := 1 <<< (level + 1)

/-- The level-search loop of the non-micro branch of PDF417Encoder::fit_ecc
(src/src/high_level.rs lines 463-467): level starts at 9 and decreases while
level > 0 and ecc_count(level - 1) exceeds the remaining capacity. -/
def fitLoop (remaining : Nat) : Nat → Nat
  | 0 => 0
  | l + 1 => if eccCount l > remaining then fitLoop remaining l else l + 1

/-- The non-micro branch of PDF417Encoder::fit_ecc (src/src/high_level.rs
lines 459-474).  The micro branch dispatches on the MicroPDF417 variant table
of the absent tables.rs and is outside every claim. -/
def fit_ecc_full (capacity used : Nat) : Option Nat :=
  let remaining := capacity - used
  let level := fitLoop remaining 9
  if level = 0 then none else some (level - 1)

/-- Write v into the slots [a, b) (the slice fill of seal). -/
def fillRange (st : List Nat) (a b v : Nat) : List Nat :=
  (List.range (b - a)).foldl (fun s j => s.set (a + j) v) st

/-- The non-micro branch of PDF417Encoder::seal (src/src/high_level.rs lines
439-448): total = capacity - ecc_count(level), slot 0 receives total (as u16),
the slots [used, total) are filled with the padding codeword 900, and
generate_ecc runs over the whole buffer.  none models the panics (the usize
subtraction when ecc_count exceeds the capacity, and the asserts inside
generate_ecc).  The micro branch depends on the variant table of the absent
tables.rs and is outside every claim. -/
def sealFull (ecc_tab : Nat → List Nat) (e : Encoder) (level : Nat) :
    Option (List Nat) :=
  if eccCount level ≤ e.storage.length then
    let total := e.storage.length - eccCount level
    let st := e.storage.set 0 (total % 2 ^ 16)
    let st := if e.used < total then fillRange st e.used total 900 else st
    generate_ecc ecc_tab st level
  else
    none

/-- Validation against test_seal_normal in src/src/high_level.rs: the sealed
buffer of the multi-segment golden test ends with ECC [516, 287] and carries
the length indicator 17. -/
theorem seal_golden :
    sealFull eccTab0
      { storage := [0, 597, 138, 599, 902, 142, 142, 901, 169, 883, 224, 680,
                    517, 32, 98, 105, 110, 0, 0],
        used := 17, micro := false, last_mode := 5 } 0
    = some [17, 597, 138, 599, 902, 142, 142, 901, 169, 883, 224, 680,
            517, 32, 98, 105, 110, 516, 287] := by
  decide

end PDF417V

namespace PDF417V

/-- Validation of append_bytes against test_encode_bytes_multiple and
test_encode_bytes_not_multiple in src/src/high_level.rs. -/
theorem append_bytes_golden :
    (append_bytes (newEncoder (List.replicate 7 0) false)
      [97, 108, 99, 111, 111, 108]).storage = [0, 924, 163, 238, 432, 766, 244] ∧
    (append_bytes (newEncoder (List.replicate 11 0) false)
      [101, 110, 99, 111, 100, 101, 32, 98, 105, 110]).storage
      = [0, 901, 169, 883, 224, 680, 517, 32, 98, 105, 110] := by
  decide

/-- Validation of append_num against test_encode_num in src/src/high_level.rs. -/
theorem append_num_golden :
    (append_num (newEncoder (List.replicate 8 0) false) 12345678987654321).storage
      = [0, 902, 190, 232, 499, 20, 504, 721] := by
  decide

end PDF417V

namespace PDF417V

theorem eccCount_eq_pow (l : Nat) : eccCount l = 2 ^ (l + 1) := by
  simp [eccCount, Nat.shiftLeft_eq]

/-- Characterization of the level-search loop of fit_ecc: starting from l the
loop either hits 0 because every level below l needs more than the remaining
capacity, or stops at the largest l' ≤ l whose predecessor level fits. -/
theorem fitLoop_spec (r : Nat) :
    ∀ l, (fitLoop r l = 0 ∧ ∀ m, m < l → eccCount m > r) ∨
      (0 < fitLoop r l ∧ fitLoop r l ≤ l ∧ eccCount (fitLoop r l - 1) ≤ r ∧
        ∀ m, m < l → eccCount m ≤ r → m ≤ fitLoop r l - 1) := by
  intro l
  induction l with
  | zero => left; exact ⟨rfl, by omega⟩
  | succ l ih =>
    by_cases hgt : eccCount l > r
    · rw [fitLoop, if_pos hgt]
      rcases ih with ⟨h0, hall⟩ | ⟨hpos, hle, hfit, hmax⟩
      · left
        refine ⟨h0, fun m hm => ?_⟩
        rcases Nat.lt_succ_iff_lt_or_eq.mp hm with hm' | hm'
        · exact hall m hm'
        · subst hm'; exact hgt
      · right
        refine ⟨hpos, by omega, hfit, fun m hm hfitm => ?_⟩
        rcases Nat.lt_succ_iff_lt_or_eq.mp hm with hm' | hm'
        · exact hmax m hm' hfitm
        · subst hm'; omega
    · rw [fitLoop, if_neg hgt]
      right
      exact ⟨Nat.succ_pos l, Nat.le_refl _, by simpa using Nat.le_of_not_lt hgt,
        fun m hm _ => by omega⟩

/-- C3: for every non-micro encoder state with used <= capacity, fit_ecc
returns some L exactly when L is the largest level in [0,8] with
2^(L+1) <= capacity - used, and none exactly when capacity - used < 2, so it
never returns a level whose ECC codewords would not fit. -/
theorem spec_c3 (capacity used : Nat) (h : used ≤ capacity) :
    (∀ L, fit_ecc_full capacity used = some L →
        L ≤ 8 ∧ 2 ^ (L + 1) ≤ capacity - used ∧
        ∀ M, M ≤ 8 → 2 ^ (M + 1) ≤ capacity - used → M ≤ L) ∧
    (fit_ecc_full capacity used = none ↔ capacity - used < 2) := by
  have hspec := fitLoop_spec (capacity - used) 9
  constructor
  · intro L hL
    rw [fit_ecc_full] at hL
    rcases hspec with ⟨h0, _⟩ | ⟨hpos, hle, hfit, hmax⟩
    · rw [if_pos h0] at hL; exact absurd hL (by simp)
    · rw [if_neg (by omega)] at hL
      have hLval : L = fitLoop (capacity - used) 9 - 1 := by
        injection hL with hh; omega
      subst hLval
      refine ⟨by omega, by rw [← eccCount_eq_pow]; omega, fun M hM hfitM => ?_⟩
      exact hmax M (by omega) (by rw [eccCount_eq_pow]; exact hfitM)
  · constructor
    · intro hnone
      rw [fit_ecc_full] at hnone
      rcases hspec with ⟨h0, hall⟩ | ⟨hpos, _, _, _⟩
      · have := hall 0 (by omega)
        rw [eccCount_eq_pow] at this
        omega
      · rw [if_neg (by omega)] at hnone
        exact absurd hnone (by simp)
    · intro hsmall
      rw [fit_ecc_full]
      rcases hspec with ⟨h0, _⟩ | ⟨hpos, hle, hfit, _⟩
      · rw [if_pos h0]
      · exfalso
        rw [eccCount_eq_pow] at hfit
        have h2 : 2 ≤ 2 ^ (fitLoop (capacity - used) 9 - 1 + 1) := by
          calc 2 = 2 ^ 1 := rfl
          _ ≤ 2 ^ (fitLoop (capacity - used) 9 - 1 + 1) :=
            Nat.pow_le_pow_right (by omega) (by omega)
        omega

/-- Witness for spec_c3: capacity 10, used 3 leaves 7 slots, so the largest
fitting level is 1 (4 ECC codewords) and fit_ecc is not none. -/
theorem spec_c3_witness :
    ((∀ L, fit_ecc_full 10 3 = some L →
        L ≤ 8 ∧ 2 ^ (L + 1) ≤ 10 - 3 ∧
        ∀ M, M ≤ 8 → 2 ^ (M + 1) ≤ 10 - 3 → M ≤ L) ∧
    (fit_ecc_full 10 3 = none ↔ 10 - 3 < 2)) ∧
    fit_ecc_full 10 3 = some 1 :=
  ⟨spec_c3 10 3 (by decide), by decide⟩

/-- C2: the claim that append_num(n) writes, for every u64 n, the latch 902
followed by the base-900 digits (most significant first) of n + 10^digits
breaks for n with 19 or more decimal digits: the u64 computation of 10^digits
(and the subsequent addition) wraps modulo 2^64.  At n = 10^19 the encoder
writes [902, 33, 387, 315, 452, 548, 402, 120], the base-900 digits of the
wrapped value 17766279631452241920, which does not represent
n + 10^20 = 110000000000000000000; the intended digits would have been
[206, 885, 869, 273, 102, 422, 200].  The golden 17-digit scenario of the
claim does hold (third conjunct). -/
theorem spec_c2_bug :
    ((append_num (newEncoder (List.replicate 9 0) false) 10000000000000000000).storage
      = [0, 902, 33, 387, 315, 452, 548, 402, 120])
    ∧ (List.foldl (fun a d => a * 900 + d) 0 [33, 387, 315, 452, 548, 402, 120]
      = 17766279631452241920)
    ∧ (List.foldl (fun a d => a * 900 + d) 0 [206, 885, 869, 273, 102, 422, 200]
      = 10000000000000000000 + 10 ^ 20)
    ∧ ((append_num (newEncoder (List.replicate 9 0) false) 10000000000000000000).storage
      ≠ [0, 902, 206, 885, 869, 273, 102, 422, 200])
    ∧ ((append_num (newEncoder (List.replicate 8 0) false) 12345678987654321).storage
      = [0, 902, 190, 232, 499, 20, 504, 721]) := by
  decide

/-- C4: seal(level) on an overfull non-micro encoder (used > capacity -
2^(level+1)) does not signal any error: the example encoder holds the data
codewords [0, 902, 1, 211] with used = 4 in a 4-slot buffer; sealing at level
0 returns some buffer (no panic is reached) in which the appended data
codewords 1 and 211 at slots 2 and 3 have been silently replaced by the ECC
codewords 90 and 848 computed over the truncated data [2, 902]. -/
theorem spec_c4_bug :
    (append_num (newEncoder [0, 0, 0, 0] false) 111).storage = [0, 902, 1, 211] ∧
    (append_num (newEncoder [0, 0, 0, 0] false) 111).used = 4 ∧
    sealFull eccTab0 (append_num (newEncoder [0, 0, 0, 0] false) 111) 0
      = some [2, 902, 90, 848] := by
  decide

/-- C7 counterexample: on a fresh MicroPDF417 encoder (initial mode Byte),
append_bytes of the single byte 65 writes the latch 901, not the one-shot
shift 913 the claim promises for every compaction mode. -/
theorem spec_c7_cex :
    (append_bytes (newEncoder [0, 0, 0, 0] true) [65]).storage = [901, 65, 0, 0] ∧
    (901 : Nat) ≠ 913 := by
  decide

/-- C7 (amended): append_bytes of a single byte b writes two codewords at the
cursor and advances it by 2; the first codeword is the one-shot shift 913 when
the current mode is a text mode (last_mode < 4) and the byte latch 901 when
the encoder is in Numeric or Byte mode (in which case the mode becomes Byte). -/
theorem spec_c7 (e : Encoder) (b : Nat) (hb : b < 256)
    (hcap : e.used + 2 ≤ e.storage.length) :
    (append_bytes e [b]).storage =
      (e.storage.set e.used (if e.last_mode < 4 then 913 else 901)).set (e.used + 1) b ∧
    (append_bytes e [b]).used = e.used + 2 ∧
    (append_bytes e [b]).last_mode = (if e.last_mode < 4 then e.last_mode else 5) := by
  by_cases hm : e.last_mode < 4
  · simp [append_bytes, writeRest, hm]
  · simp [append_bytes, writeRest, hm]

/-- Witness for spec_c7 on a fresh full-symbol encoder and the byte 7. -/
theorem spec_c7_witness :
    (7 : Nat) < 256 ∧
    (newEncoder [0, 0, 0, 0] false).used + 2 ≤ (newEncoder [0, 0, 0, 0] false).storage.length ∧
    ((append_bytes (newEncoder [0, 0, 0, 0] false) [7]).storage =
      ((newEncoder [0, 0, 0, 0] false).storage.set (newEncoder [0, 0, 0, 0] false).used
        (if (newEncoder [0, 0, 0, 0] false).last_mode < 4 then 913 else 901)).set
        ((newEncoder [0, 0, 0, 0] false).used + 1) 7 ∧
    (append_bytes (newEncoder [0, 0, 0, 0] false) [7]).used
      = (newEncoder [0, 0, 0, 0] false).used + 2 ∧
    (append_bytes (newEncoder [0, 0, 0, 0] false) [7]).last_mode
      = (if (newEncoder [0, 0, 0, 0] false).last_mode < 4
         then (newEncoder [0, 0, 0, 0] false).last_mode else 5)) :=
  ⟨by decide, by decide, spec_c7 (newEncoder [0, 0, 0, 0] false) 7 (by decide) (by decide)⟩

end PDF417V

namespace PDF417V

/-! ## append_ascii (src/src/high_level.rs lines 237-387)

The loop state carries the output buffer, the cursor i, the pending-half flag
(right) and the compaction mode.  The push! macro packs sub-codewords two per
slot; push_sp! flushes a pending half with 29 and then writes a full-width
codeword. -/

structure AsciiSt where
  out : List Nat
  i : Nat
  right : Bool
  mode : Nat
  deriving Repr, DecidableEq

/-- The push! macro of high_level.rs (lines 50-70). -/
def pushA (st : AsciiSt) (cw : Nat) : AsciiSt :=
  if st.right then
    { out := st.out.set st.i (st.out.getD st.i 0 * 30 + cw), i := st.i + 1,
      right := false, mode := st.mode }
  else
    { out := st.out.set st.i cw, i := st.i, right := true, mode := st.mode }

/-- The push_sp! macro of high_level.rs (lines 72-85): flush a pending half
with 29, then write cw into its own slot. -/
def pushSpA (st : AsciiSt) (cw : Nat) : AsciiSt :=
  let st1 :=
    if st.right then
      { out := st.out.set st.i (st.out.getD st.i 0 * 30 + 29), i := st.i + 1,
        right := false, mode := st.mode }
    else st
  { out := st1.out.set st1.i cw, i := st1.i + 1, right := st1.right, mode := st1.mode }

/-- The trailing flush of append_ascii (lines 379-382) and of the byte
fallback (lines 365-368).  Note the Rust code resets right only in the
trailing flush; the byte fallback leaves right set, which the fallback
embedding below reproduces by restoring the flag. -/
def flushA (st : AsciiSt) : AsciiSt :=
  if st.right then
    { out := st.out.set st.i (st.out.getD st.i 0 * 30 + 29), i := st.i + 1,
      right := false, mode := st.mode }
  else st

def setMode (st : AsciiSt) (m : Nat) : AsciiSt :=
  { out := st.out, i := st.i, right := st.right, mode := m }

def isUpper (c : Nat) : Bool := 65 ≤ c ∧ c ≤ 90
def isLower (c : Nat) : Bool := 97 ≤ c ∧ c ≤ 122
def isDigit (c : Nat) : Bool := 48 ≤ c ∧ c ≤ 57

/-- MIXED_CHAR_SET of high_level.rs (lines 41-43), as byte values. -/
def MIXED_SET : List Nat := [38, 13, 9, 44, 58, 35, 45, 46, 36, 47, 43, 37, 42, 61, 94]

/-- PUNC_CHAR_SET of high_level.rs (lines 44-48), as byte values. -/
def PUNC_SET : List Nat :=
  [59, 60, 62, 64, 91, 92, 93, 95, 96, 126, 33, 13, 9, 44, 58, 10, 45, 46, 36,
   47, 34, 124, 42, 40, 41, 63, 123, 125, 39]

/-- Length of the run of leading decimal-digit bytes, capped (the digit scan
of lines 280-283 extends the run by at most 43 beyond the first digit, the
punctuation scan of lines 352-355 by at most 2). -/
def digitsRun : Nat → List Nat → Nat
  | _, [] => 0
  | 0, _ :: _ => 0
  | cap + 1, c :: rest => if isDigit c then digitsRun cap rest + 1 else 0

def puncRun : Nat → List Nat → Nat
  | _, [] => 0
  | 0, _ :: _ => 0
  | cap + 1, c :: rest =>
      if (PUNC_SET.findIdx? (fun r => r == c)).isSome then puncRun cap rest + 1 else 0

/-- bytes_radix_ of the U160 digit path (line 303): accumulate the decimal
digits into a 160-bit number (each step wraps mod 2^160; for the at most 44
digits the scan produces, no wrap ever occurs). -/
def parseDec (l : List Nat) : Nat :=
  l.foldl (fun a c => (a * 10 + (c - 48)) % 2 ^ 160) 0

/-- The U160 power-of-ten loop of lines 309-315: starting from 2^digits,
multiply by 5 digits times (each step p0 = p1 << 2; p1 += p0, mod 2^160). -/
def mul5 : Nat → Nat → Nat
  | 0, p1 => p1
  | k + 1, p1 => mul5 k ((p1 + p1 <<< 2 % 2 ^ 160) % 2 ^ 160)

/-- One full iteration of the append_ascii character loop, processing the
head character; returns the new state and the remaining input, or none for
the unreachable! arms (modes that cannot occur at loop entry). -/
def encStep (st : AsciiSt) (c : Nat) (rest : List Nat) :
    Option (AsciiSt × List Nat) :=
  if isUpper c then
    match st.mode with
    | 0 => some (pushA st (c - 65), rest)
    | 1 =>
        let st1 :=
          if (match rest with | c2 :: _ => isLower c2 | [] => false) then
            pushA st 27
          else
            setMode (pushA (pushA st 29) 29) 0
        some (pushA st1 (c - 65), rest)
    | 2 => some (pushA (setMode (pushA st 28) 0) (c - 65), rest)
    | 3 => some (pushA (setMode (pushA st 29) 0) (c - 65), rest)
    | _ => none
  else if isLower c then
    match st.mode with
    | 0 => some (pushA (setMode (pushA st 27) 1) (c - 97), rest)
    | 2 => some (pushA (setMode (pushA st 27) 1) (c - 97), rest)
    | 1 => some (pushA st (c - 97), rest)
    | 3 => some (pushA (setMode (pushA (pushA st 29) 27) 1) (c - 97), rest)
    | _ => none
  else if isDigit c then
    let extra := digitsRun 43 rest
    let digits := extra + 1
    let run := c :: rest.take extra
    let rest2 := rest.drop extra
    if digits ≤ 13 ∧ st.mode ≠ 4 then
      let st1 :=
        match st.mode with
        | 0 => some (setMode (pushA st 28) 2)
        | 1 => some (setMode (pushA st 28) 2)
        | 2 => some st
        | 3 => some (setMode (pushA (pushA st 29) 28) 2)
        | _ => none
      st1.map (fun st1 => (run.foldl (fun s d => pushA s (d - 48)) st1, rest2))
    else
      let st1 := if st.mode ≠ 4 then setMode (pushSpA st 902) 4 else st
      let b := parseDec run
      let p1 := mul5 digits (2 ^ digits % 2 ^ 160)
      let b := (b + p1) % 2 ^ 160
      let nb := digits / 3 + 1
      let st2 : AsciiSt :=
        { out := b900Write 64 st1.out st1.i nb 0 b, i := st1.i + nb,
          right := st1.right, mode := st1.mode }
      let exitRun : Bool := match rest2 with | c2 :: _ => ! isDigit c2 | [] => false
      let st3 :=
        if st2.mode = 4 ∧ exitRun then setMode (pushSpA st2 900) 0 else st2
      some (st3, rest2)
  else if c = 32 then
    let st1 := if st.mode = 3 then setMode (pushA st 29) 0 else st
    some (pushA st1 26, rest)
  else
    match MIXED_SET.findIdx? (fun r => r == c) with
    | some p =>
        let st1 :=
          match st.mode with
          | 0 => some (setMode (pushA st 28) 2)
          | 1 => some (setMode (pushA st 28) 2)
          | 2 => some st
          | 3 =>
              if (1 ≤ p ∧ p ≤ 4) ∨ (6 ≤ p ∧ p ≤ 9) then some st
              else some (setMode (pushA (pushA st 29) 28) 2)
          | _ => none
        st1.map (fun st1 => (pushA st1 (p + 10), rest))
    | none =>
      match PUNC_SET.findIdx? (fun r => r == c) with
      | some p =>
          if st.mode ≠ 3 then
            if puncRun 2 rest + 1 ≥ 3 then
              let st1 := if st.mode ≠ 2 then pushA st 28 else st
              some (pushA (setMode (pushA st1 25) 3) p, rest)
            else
              some (pushA (pushA st 29) p, rest)
          else some (pushA st p, rest)
      | none =>
          let st1 := flushA st
          some ({ out := (st1.out.set st1.i 913).set (st1.i + 1) c,
                  i := st1.i + 2, right := st.right, mode := st.mode }, rest)

/-- The append_ascii character loop; the fuel dominates the input length, so
with fuel = length + 1 the loop always ends on the empty input. -/
def encA : Nat → AsciiSt → List Nat → Option AsciiSt
  | 0, _, _ => none
  | _ + 1, st, [] => some st
  | fuel + 1, st, c :: rest => do
      let (st1, rest1) ← encStep st c rest
      encA fuel st1 rest1

/-- PDF417Encoder::append_ascii (src/src/high_level.rs lines 237-387): latch
back to text when the encoder was in Numeric or Byte mode, run the character
loop, flush a pending half, and store the cursor and mode. -/
def append_ascii (e : Encoder) (s : List Nat) : Option Encoder :=
  let st0 : AsciiSt := { out := e.storage, i := e.used, right := false, mode := e.last_mode }
  let st0 :=
    if st0.mode = 4 ∨ st0.mode = 5 then
      { out := st0.out.set st0.i 900, i := st0.i + 1, right := false, mode := 0 }
    else st0
  (encA (s.length + 1) st0 s).map (fun st =>
    let st := flushA st
    { storage := st.out, used := st.i, micro := e.micro, last_mode := st.mode })

/-- Validation of append_ascii against test_encode_ascii_simple,
test_generate_ascii_switch_modes and test_generate_ascii_punc_mixed in
src/src/high_level.rs. -/
theorem append_ascii_golden :
    (append_ascii (newEncoder (List.replicate 4 0) false)
      [84, 101, 115, 116]).map Encoder.storage
      = some [0, 597, 138, 599] ∧
    (append_ascii (newEncoder (List.replicate 9 0) false)
      [97, 98, 99, 49, 68, 50, 51, 52, 27]).map Encoder.storage
      = some [0, 810, 32, 841, 843, 842, 94, 913, 27] ∧
    (append_ascii (newEncoder (List.replicate 18 0) false)
      [84, 104, 105, 115, 33, 32, 73, 115, 32, 97, 32, 96, 113, 117, 111, 116,
       101, 32, 40, 49, 48, 48, 37, 41, 96, 46]).map Encoder.storage
      = some [0, 597, 218, 569, 326, 818, 566, 26, 878, 500, 439, 146, 893,
              841, 0, 655, 728, 539] := by
  decide

/-- Validation of the numeric path of append_ascii against
test_generate_ascii_numeric and test_generate_ascii_numeric_big in
src/src/high_level.rs (17-digit run, then a 44+7-digit run split). -/
theorem append_ascii_numeric_golden :
    (append_ascii (newEncoder (List.replicate 12 0) false)
      [49, 50, 51, 52, 53, 54, 55, 56, 57, 56, 55, 54, 53, 52, 51, 50, 49,
       32, 110, 117, 109]).map Encoder.storage
      = some [0, 902, 190, 232, 499, 20, 504, 721, 900, 807, 410, 389] ∧
    (append_ascii (newEncoder (List.replicate 20 0) false)
      [49, 50, 51, 52, 53, 54, 55, 56, 57, 56, 55, 54, 53, 52, 51, 50, 49,
       49, 50, 51, 52, 53, 54, 55, 56, 57, 56, 55, 54, 53, 52, 51, 50, 49,
       49, 50, 51, 52, 53, 54, 55, 56, 57, 56, 55, 54, 53, 52, 51, 50, 49]).map Encoder.storage
      = some [0, 902, 491, 81, 137, 725, 651, 455, 511, 858, 135, 138, 488,
              568, 447, 553, 198, 21, 715, 821] := by
  decide

end PDF417V

namespace PDF417V

/-- C8 counterexample: on the 5-slot buffer that the claim prescribes,
encoding "Test" (bytes [84,101,115,116]) on a fresh full-symbol encoder
yields the data codewords [597, 138, 599] at slots 1-3 (used = 4), and
seal(0) computes total = 5 - 2 = 3: the sealed buffer is
[3, 597, 138, 504, 393], whose length indicator is 3 (not 16) and whose last
two codewords are [504, 393] (not the claimed ECC [161, 542]). -/
theorem spec_c8_cex :
    ((append_ascii (newEncoder (List.replicate 5 0) false)
      [84, 101, 115, 116]).bind (fun e => sealFull eccTab0 e 0))
      = some [3, 597, 138, 504, 393] ∧
    ¬ (([3, 597, 138, 504, 393] : List Nat).getD 0 0 = 16 ∧
       ([3, 597, 138, 504, 393] : List Nat).drop 3 = [161, 542]) := by
  decide

/-- C8 (amended): encoding "Test" via append_ascii on a fresh full-symbol
encoder produces the data codewords [19*30+27, 4*30+18, 19*30+29] =
[597, 138, 599] at slots 1-3; a buffer that holds the length indicator, these
3 data codewords and the 2 level-0 ECC codewords needs 6 slots, and sealing
the 6-slot buffer at level 0 appends the ECC codewords [600, 139] and sets
the length indicator to 4. -/
theorem spec_c8 :
    (append_ascii (newEncoder (List.replicate 6 0) false)
      [84, 101, 115, 116]).map (fun e => (e.storage, e.used))
      = some ([0, 19 * 30 + 27, 4 * 30 + 18, 19 * 30 + 29, 0, 0], 4) ∧
    ((append_ascii (newEncoder (List.replicate 6 0) false)
      [84, 101, 115, 116]).bind (fun e => sealFull eccTab0 e 0))
      = some [4, 19 * 30 + 27, 4 * 30 + 18, 19 * 30 + 29, 600, 139] := by
  decide

end PDF417V

namespace PDF417V

/-! ## Write-frontier lemmas for append_ascii

Every write of the character loop lands at a position at or beyond the cursor
at the time of the write, and the cursor never decreases, so the loop never
touches the slots below its starting cursor.  The only delicate spot is the
base-900 write-back loop, whose write position pos + nb - count - 1 stays at
or beyond pos exactly because the number being decomposed always fits in nb
base-900 digits (at most 44 decimal digits are scanned at a time). -/

theorem digitsRun_le (cap : Nat) : ∀ l, digitsRun cap l ≤ cap := by
  induction cap with
  | zero =>
    intro l
    cases l with
    | nil => rw [digitsRun]
    | cons c rest => rw [digitsRun]
  | succ cap ih =>
    intro l
    cases l with
    | nil => rw [digitsRun]; omega
    | cons c rest =>
      rw [digitsRun]
      split
      · have := ih rest; omega
      · omega

theorem digitsRun_take (cap : Nat) : ∀ (l : List Nat), ∀ x ∈ l.take (digitsRun cap l),
    isDigit x = true := by
  induction cap with
  | zero =>
    intro l x hx
    cases l with
    | nil => simp at hx
    | cons c rest => rw [digitsRun] at hx; simp at hx
  | succ cap ih =>
    intro l x hx
    cases l with
    | nil => simp at hx
    | cons c rest =>
      rw [digitsRun] at hx
      by_cases hc : isDigit c
      · rw [if_pos hc] at hx
        rw [List.take_succ_cons] at hx
        rcases List.mem_cons.mp hx with h | h
        · subst h; exact hc
        · exact ih rest x h
      · rw [if_neg hc] at hx; simp at hx

theorem pow10_lt_two_pow160 : 10 ^ 44 < 2 ^ 160 := by decide

/-- The decimal accumulation never wraps for at most 44 digit bytes. -/
theorem parseDec_aux_lt : ∀ (l : List Nat) (a k : Nat),
    (∀ x ∈ l, isDigit x = true) → a < 10 ^ k → k + l.length ≤ 44 →
    l.foldl (fun a c => (a * 10 + (c - 48)) % 2 ^ 160) a < 10 ^ (k + l.length) := by
  intro l
  induction l with
  | nil => intro a k _ ha _; simpa using ha
  | cons c rest ih =>
    intro a k hdig ha hlen
    rw [List.length_cons] at hlen
    rw [List.foldl_cons]
    have hc : isDigit c = true := hdig c (List.mem_cons_self c rest)
    have hc9 : c - 48 ≤ 9 := by
      rw [isDigit] at hc
      simp at hc
      omega
    have hstep : a * 10 + (c - 48) < 10 ^ (k + 1) := by
      calc a * 10 + (c - 48) ≤ a * 10 + 9 := by omega
      _ < (a + 1) * 10 := by omega
      _ ≤ 10 ^ k * 10 := Nat.mul_le_mul_right 10 ha
      _ = 10 ^ (k + 1) := by ring
    have hsmall : a * 10 + (c - 48) < 2 ^ 160 := by
      have h1 : (10 : Nat) ^ (k + 1) ≤ 10 ^ 44 :=
        Nat.pow_le_pow_right (by omega) (by omega : k + 1 ≤ 44)
      have h2 := pow10_lt_two_pow160
      omega
    rw [Nat.mod_eq_of_lt hsmall]
    have := ih (a * 10 + (c - 48)) (k + 1) (fun x hx => hdig x (List.mem_cons_of_mem _ hx))
      hstep (by omega : (k + 1) + rest.length ≤ 44)
    have harith : k + 1 + rest.length = k + (rest.length + 1) := by omega
    rw [harith] at this
    simpa using this

theorem parseDec_lt (l : List Nat) (hdig : ∀ x ∈ l, isDigit x = true)
    (hlen : l.length ≤ 44) : parseDec l < 10 ^ l.length := by
  have := parseDec_aux_lt l 0 0 hdig (by decide) (by omega)
  simpa [parseDec] using this

/-- The power-of-ten loop computes an exact product when it does not wrap. -/
theorem mul5_eq : ∀ (k p : Nat), p * 5 ^ k < 2 ^ 160 → mul5 k p = p * 5 ^ k := by
  intro k
  induction k with
  | zero => intro p _; rw [mul5]; simp
  | succ k ih =>
    intro p hp
    rw [mul5]
    have hlt : p * 5 ≤ p * 5 ^ (k + 1) := by
      have : (5 : Nat) ≤ 5 ^ (k + 1) :=
        Nat.le_self_pow (by omega) 5
      exact Nat.mul_le_mul_left p this
    have h4 : p <<< 2 = p * 4 := by
      rw [Nat.shiftLeft_eq]
    have h4lt : p * 4 < 2 ^ 160 := by omega
    have h5lt : p * 5 < 2 ^ 160 := by omega
    rw [h4, Nat.mod_eq_of_lt h4lt, Nat.mod_eq_of_lt (by omega : p + p * 4 < 2 ^ 160)]
    have : p + p * 4 = p * 5 := by ring
    rw [this, ih (p * 5) (by
      have : p * 5 * 5 ^ k = p * 5 ^ (k + 1) := by ring
      rw [this]; exact hp)]
    ring

theorem two_pow10_le_pow900 (d : Nat) (hd : d ≤ 44) :
    2 * 10 ^ d ≤ 900 ^ (d / 3 + 1) := by
  interval_cases d <;> decide

/-- The value handed to the base-900 write-back loop of the append_ascii
digit path fits in nb = digits/3 + 1 base-900 digits. -/
theorem digitValue_lt (c : Nat) (rest : List Nat) (hc : isDigit c = true) :
    (parseDec (c :: rest.take (digitsRun 43 rest)) +
      mul5 (digitsRun 43 rest + 1) (2 ^ (digitsRun 43 rest + 1) % 2 ^ 160)) % 2 ^ 160
      < 900 ^ ((digitsRun 43 rest + 1) / 3 + 1) := by
  set d := digitsRun 43 rest + 1 with hd
  have hd44 : d ≤ 44 := by have := digitsRun_le 43 rest; omega
  have hrun : ∀ x ∈ c :: rest.take (digitsRun 43 rest), isDigit x = true := by
    intro x hx
    rcases List.mem_cons.mp hx with h | h
    · subst h; exact hc
    · exact digitsRun_take 43 rest x h
  have hlen : (c :: rest.take (digitsRun 43 rest)).length ≤ 44 := by
    simp only [List.length_cons, List.length_take]
    have := digitsRun_le 43 rest
    omega
  have hparse : parseDec (c :: rest.take (digitsRun 43 rest))
      < 10 ^ (c :: rest.take (digitsRun 43 rest)).length :=
    parseDec_lt _ hrun hlen
  have hlend : (c :: rest.take (digitsRun 43 rest)).length ≤ d := by
    simp only [List.length_cons, List.length_take]
    omega
  have hparse' : parseDec (c :: rest.take (digitsRun 43 rest)) < 10 ^ d :=
    Nat.lt_of_lt_of_le hparse (Nat.pow_le_pow_right (by omega) hlend)
  have h10 : (10 : Nat) ^ d < 2 ^ 160 := by
    exact Nat.lt_of_le_of_lt (Nat.pow_le_pow_right (by omega) hd44) pow10_lt_two_pow160
  have h2d : (2 : Nat) ^ d % 2 ^ 160 = 2 ^ d := by
    apply Nat.mod_eq_of_lt
    exact Nat.pow_lt_pow_right (by omega) (by omega : d < 160)
  have hmul : mul5 d (2 ^ d % 2 ^ 160) = 10 ^ d := by
    rw [h2d, mul5_eq]
    · have : (2 : Nat) ^ d * 5 ^ d = 10 ^ d := by
        rw [← Nat.mul_pow]
      exact this
    · have : (2 : Nat) ^ d * 5 ^ d = 10 ^ d := by rw [← Nat.mul_pow]
      rw [this]; exact h10
  rw [hmul]
  have hsum : parseDec (c :: rest.take (digitsRun 43 rest)) + 10 ^ d < 2 * 10 ^ d := by
    omega
  have hsum2 : parseDec (c :: rest.take (digitsRun 43 rest)) + 10 ^ d < 2 ^ 160 := by
    have := pow10_lt_two_pow160
    have h44 : (10 : Nat) ^ d ≤ 10 ^ 44 := Nat.pow_le_pow_right (by omega) hd44
    omega
  rw [Nat.mod_eq_of_lt hsum2]
  have := two_pow10_le_pow900 d hd44
  omega

/-- If the value fits in nb - count base-900 digits, the write-back loop
leaves every slot below pos untouched. -/
theorem b900Write_below : ∀ (fuel : Nat) (st : List Nat) (pos nb count n : Nat),
    n < 900 ^ (nb - count) →
    ∀ j, j < pos → (b900Write fuel st pos nb count n).getD j 0 = st.getD j 0 := by
  intro fuel
  induction fuel with
  | zero => intro st pos nb count n _ j _; rw [b900Write]
  | succ fuel ih =>
    intro st pos nb count n hn j hj
    rw [b900Write]
    by_cases h0 : n = 0
    · rw [if_pos h0]
    · rw [if_neg h0]
      have hcount : count < nb := by
        by_contra hcon
        have : nb - count = 0 := by omega
        rw [this] at hn
        simp at hn
        omega
      have hrec : n / 900 < 900 ^ (nb - (count + 1)) := by
        have h1 : nb - count = (nb - (count + 1)) + 1 := by omega
        rw [h1, pow_succ] at hn
        omega
      rw [ih _ pos nb (count + 1) (n / 900) hrec j hj]
      rw [getD_set_split, if_neg (by intro hh; omega)]

end PDF417V

namespace PDF417V

/-- The loop state st' preserves every slot below lo and keeps its cursor at
or beyond lo. -/
def Keeps (lo : Nat) (st st' : AsciiSt) : Prop :=
  (∀ j, j < lo → st'.out.getD j 0 = st.out.getD j 0) ∧ lo ≤ st'.i

theorem keeps_refl (lo : Nat) (st : AsciiSt) (h : lo ≤ st.i) : Keeps lo st st :=
  ⟨fun _ _ => rfl, h⟩

theorem keeps_trans {lo : Nat} {st st' st'' : AsciiSt} :
    Keeps lo st st' → Keeps lo st' st'' → Keeps lo st st'' :=
  fun h1 h2 => ⟨fun j hj => (h2.1 j hj).trans (h1.1 j hj), h2.2⟩

theorem pushA_keeps (lo : Nat) (st : AsciiSt) (cw : Nat) (h : lo ≤ st.i) :
    Keeps lo st (pushA st cw) := by
  rw [Keeps, pushA]
  split
  · refine ⟨fun j hj => ?_, ?_⟩
    · dsimp only
      rw [getD_set_split, if_neg (by intro hh; omega)]
    · dsimp only
      omega
  · refine ⟨fun j hj => ?_, ?_⟩
    · dsimp only
      rw [getD_set_split, if_neg (by intro hh; omega)]
    · dsimp only
      omega

theorem pushA_i_mono (st : AsciiSt) (cw : Nat) : st.i ≤ (pushA st cw).i := by
  rw [pushA]; split <;> dsimp only <;> omega

theorem flushA_keeps (lo : Nat) (st : AsciiSt) (h : lo ≤ st.i) :
    Keeps lo st (flushA st) := by
  rw [Keeps, flushA]
  split
  · refine ⟨fun j hj => ?_, ?_⟩
    · dsimp only
      rw [getD_set_split, if_neg (by intro hh; omega)]
    · dsimp only
      omega
  · exact ⟨fun _ _ => rfl, h⟩

theorem flushA_i_mono (st : AsciiSt) : st.i ≤ (flushA st).i := by
  rw [flushA]; split
  · dsimp only; omega
  · omega

theorem pushSpA_keeps (lo : Nat) (st : AsciiSt) (cw : Nat) (h : lo ≤ st.i) :
    Keeps lo st (pushSpA st cw) := by
  rw [pushSpA]
  by_cases hr : st.right = true
  · rw [if_pos hr]
    refine ⟨fun j hj => ?_, ?_⟩
    · dsimp only
      rw [getD_set_split, if_neg (by intro hh; omega),
        getD_set_split, if_neg (by intro hh; omega)]
    · dsimp only
      omega
  · rw [if_neg hr]
    refine ⟨fun j hj => ?_, ?_⟩
    · dsimp only
      rw [getD_set_split, if_neg (by intro hh; omega)]
    · dsimp only
      omega

theorem pushSpA_i_mono (st : AsciiSt) (cw : Nat) : st.i ≤ (pushSpA st cw).i := by
  rw [pushSpA]
  by_cases hr : st.right = true
  · rw [if_pos hr]; dsimp only; omega
  · rw [if_neg hr]; dsimp only; omega

theorem setMode_keeps (lo : Nat) (st : AsciiSt) (m : Nat) (h : lo ≤ st.i) :
    Keeps lo st (setMode st m) :=
  ⟨fun _ _ => rfl, h⟩

theorem foldl_pushA_keeps (lo : Nat) :
    ∀ (l : List Nat) (st : AsciiSt), lo ≤ st.i →
    Keeps lo st (l.foldl (fun s d => pushA s (d - 48)) st) := by
  intro l
  induction l with
  | nil => intro st h; exact keeps_refl lo st h
  | cons d rest ih =>
    intro st h
    rw [List.foldl_cons]
    exact keeps_trans (pushA_keeps lo st (d - 48) h)
      (ih (pushA st (d - 48)) (pushA_keeps lo st (d - 48) h).2)

end PDF417V

namespace PDF417V

/-- Every branch of the append_ascii character loop writes at or beyond the
cursor, so the slots below the entry cursor stay untouched and the cursor
never moves back. -/
theorem encStep_keeps (lo : Nat) (st : AsciiSt) (c : Nat) (rest : List Nat)
    (h : lo ≤ st.i) :
    ∀ st1 rest1, encStep st c rest = some (st1, rest1) → Keeps lo st st1 := by
  intro st1 rest1 hstep
  have hpp : ∀ (s : AsciiSt) (a b : Nat), lo ≤ s.i → Keeps lo s (pushA (pushA s a) b) :=
    fun s a b hs => keeps_trans (pushA_keeps lo s a hs)
      (pushA_keeps lo (pushA s a) b (pushA_keeps lo s a hs).2)
  have hpsm : ∀ (s : AsciiSt) (a m b : Nat), lo ≤ s.i →
      Keeps lo s (pushA (setMode (pushA s a) m) b) :=
    fun s a m b hs => keeps_trans (pushA_keeps lo s a hs)
      (pushA_keeps lo _ b (pushA_keeps lo s a hs).2)
  simp only [encStep] at hstep
  split at hstep
  · -- uppercase
    split at hstep
    · injection hstep with hstep
      injection hstep with h1 h2
      subst h1
      exact pushA_keeps lo st (c - 65) h
    · injection hstep with hstep
      injection hstep with h1 h2
      subst h1
      split
      · exact keeps_trans (pushA_keeps lo st 27 h)
          (pushA_keeps lo _ (c - 65) (pushA_keeps lo st 27 h).2)
      · exact keeps_trans (hpp st 29 29 h)
          (pushA_keeps lo _ (c - 65) (hpp st 29 29 h).2)
    · injection hstep with hstep
      injection hstep with h1 h2
      subst h1
      exact hpsm st 28 0 (c - 65) h
    · injection hstep with hstep
      injection hstep with h1 h2
      subst h1
      exact hpsm st 29 0 (c - 65) h
    · exact absurd hstep (by simp)
  · split at hstep
    · -- lowercase
      split at hstep
      · injection hstep with hstep
        injection hstep with h1 h2
        subst h1
        exact hpsm st 27 1 (c - 97) h
      · injection hstep with hstep
        injection hstep with h1 h2
        subst h1
        exact hpsm st 27 1 (c - 97) h
      · injection hstep with hstep
        injection hstep with h1 h2
        subst h1
        exact pushA_keeps lo st (c - 97) h
      · injection hstep with hstep
        injection hstep with h1 h2
        subst h1
        exact keeps_trans (hpp st 29 27 h)
          (pushA_keeps lo _ (c - 97) (hpp st 29 27 h).2)
      · exact absurd hstep (by simp)
    · split at hstep
      · -- digit
        split at hstep
        · -- short run
          split at hstep
          · simp only [Option.map_some'] at hstep
            injection hstep with hstep
            injection hstep with h1 h2
            subst h1
            have hk := keeps_trans (pushA_keeps lo st 28 h)
              (setMode_keeps lo (pushA st 28) 2 (pushA_keeps lo st 28 h).2)
            exact keeps_trans hk (foldl_pushA_keeps lo _ _ hk.2)
          · simp only [Option.map_some'] at hstep
            injection hstep with hstep
            injection hstep with h1 h2
            subst h1
            have hk := keeps_trans (pushA_keeps lo st 28 h)
              (setMode_keeps lo (pushA st 28) 2 (pushA_keeps lo st 28 h).2)
            exact keeps_trans hk (foldl_pushA_keeps lo _ _ hk.2)
          · simp only [Option.map_some'] at hstep
            injection hstep with hstep
            injection hstep with h1 h2
            subst h1
            exact foldl_pushA_keeps lo _ st h
          · simp only [Option.map_some'] at hstep
            injection hstep with hstep
            injection hstep with h1 h2
            subst h1
            have hk := keeps_trans (hpp st 29 28 h)
              (setMode_keeps lo _ 2 (hpp st 29 28 h).2)
            exact keeps_trans hk (foldl_pushA_keeps lo _ _ hk.2)
          · simp only [Option.map_none'] at hstep
            exact absurd hstep (by simp)
        · -- long run, base-900 path
          injection hstep with hstep
          injection hstep with h1 h2
          subst h1
          have hbv := digitValue_lt c rest (by assumption)
          have hk1 : Keeps lo st
              (if st.mode ≠ 4 then setMode (pushSpA st 902) 4 else st) := by
            split
            · exact keeps_trans (pushSpA_keeps lo st 902 h)
                (setMode_keeps lo _ 4 (pushSpA_keeps lo st 902 h).2)
            · exact keeps_refl lo st h
          set stL := if st.mode ≠ 4 then setMode (pushSpA st 902) 4 else st with hstL
          set bv := (parseDec (c :: rest.take (digitsRun 43 rest)) +
            mul5 (digitsRun 43 rest + 1)
              (2 ^ (digitsRun 43 rest + 1) % 2 ^ 160)) % 2 ^ 160 with hbvdef
          set nb := (digitsRun 43 rest + 1) / 3 + 1 with hnb
          have hk2 : Keeps lo st
              ({ out := b900Write 64 stL.out stL.i nb 0 bv, i := stL.i + nb,
                 right := stL.right, mode := stL.mode } : AsciiSt) := by
            refine keeps_trans hk1 ⟨fun j hj => ?_, ?_⟩
            · dsimp only
              exact b900Write_below 64 stL.out stL.i nb 0 bv
                (by rw [Nat.sub_zero]; exact hbv) j
                (by have := hk1.2; omega : j < stL.i)
            · dsimp only
              have := hk1.2
              omega
          split
          · refine keeps_trans hk2 ?_
            exact keeps_trans (pushSpA_keeps lo _ 900 hk2.2)
              (setMode_keeps lo _ 0 (pushSpA_keeps lo _ 900 hk2.2).2)
          · exact hk2
      · split at hstep
        · -- space
          injection hstep with hstep
          injection hstep with h1 h2
          subst h1
          split
          · exact keeps_trans (pushA_keeps lo st 29 h)
              (pushA_keeps lo _ 26 (pushA_keeps lo st 29 h).2)
          · exact pushA_keeps lo st 26 h
        · -- mixed / punctuation / byte fallback
          split at hstep
          · -- mixed hit
            split at hstep
            · simp only [Option.map_some'] at hstep
              injection hstep with hstep
              injection hstep with h1 h2
              subst h1
              exact hpsm st 28 2 _ h
            · simp only [Option.map_some'] at hstep
              injection hstep with hstep
              injection hstep with h1 h2
              subst h1
              exact hpsm st 28 2 _ h
            · simp only [Option.map_some'] at hstep
              injection hstep with hstep
              injection hstep with h1 h2
              subst h1
              exact pushA_keeps lo st _ h
            · split at hstep
              · simp only [Option.map_some'] at hstep
                injection hstep with hstep
                injection hstep with h1 h2
                subst h1
                exact pushA_keeps lo st _ h
              · simp only [Option.map_some'] at hstep
                injection hstep with hstep
                injection hstep with h1 h2
                subst h1
                refine keeps_trans (hpp st 29 28 h) ?_
                exact pushA_keeps lo _ _ (hpp st 29 28 h).2
            · simp only [Option.map_none'] at hstep
              exact absurd hstep (by simp)
          · -- punctuation or fallback
            split at hstep
            · -- punctuation hit
              split at hstep
              · split at hstep
                · -- latch to punctuation
                  injection hstep with hstep
                  injection hstep with h1 h2
                  subst h1
                  have hk1 : Keeps lo st (if st.mode ≠ 2 then pushA st 28 else st) := by
                    split
                    · exact pushA_keeps lo st 28 h
                    · exact keeps_refl lo st h
                  refine keeps_trans hk1 ?_
                  refine keeps_trans (pushA_keeps lo _ 25 hk1.2) ?_
                  exact pushA_keeps lo _ _ (pushA_keeps lo _ 25 hk1.2).2
                · injection hstep with hstep
                  injection hstep with h1 h2
                  subst h1
                  exact keeps_trans (pushA_keeps lo st 29 h)
                    (pushA_keeps lo _ _ (pushA_keeps lo st 29 h).2)
              · injection hstep with hstep
                injection hstep with h1 h2
                subst h1
                exact pushA_keeps lo st _ h
            · -- byte fallback
              injection hstep with hstep
              injection hstep with h1 h2
              subst h1
              have hk1 := flushA_keeps lo st h
              refine keeps_trans hk1 ⟨fun j hj => ?_, ?_⟩
              · dsimp only
                rw [getD_set_split, if_neg (by intro hh; have := hk1.2; omega),
                  getD_set_split, if_neg (by intro hh; have := hk1.2; omega)]
              · dsimp only
                have := hk1.2
                omega

end PDF417V

namespace PDF417V

theorem encA_keeps (lo : Nat) : ∀ (fuel : Nat) (s : List Nat) (st stF : AsciiSt),
    encA fuel st s = some stF → lo ≤ st.i → Keeps lo st stF := by
  intro fuel
  induction fuel with
  | zero =>
    intro s st stF hrun h
    rw [encA] at hrun
    exact absurd hrun (by simp)
  | succ fuel ih =>
    intro s st stF hrun h
    cases s with
    | nil =>
      rw [encA] at hrun
      injection hrun with h1
      subst h1
      exact keeps_refl lo st h
    | cons c rest =>
      rw [encA] at hrun
      cases hst : encStep st c rest with
      | none =>
        rw [hst] at hrun
        exact absurd hrun (by simp)
      | some pr =>
        obtain ⟨st1, rest1⟩ := pr
        rw [hst] at hrun
        simp only [Option.bind_some] at hrun
        have hk1 := encStep_keeps lo st c rest h st1 rest1 hst
        exact keeps_trans hk1 (ih rest1 st1 stF hrun hk1.2)

/-- On a fresh micro encoder append_ascii first latches to text: mode 5
triggers the 900 write at slot 0 and the loop starts at cursor 1. -/
theorem append_ascii_micro_entry (storage s : List Nat) :
    append_ascii (newEncoder storage true) s
      = (encA (s.length + 1)
          { out := storage.set 0 900, i := 1, right := false, mode := 0 } s).map
          (fun st => { storage := (flushA st).out, used := (flushA st).i,
                       micro := true, last_mode := (flushA st).mode }) := rfl

/-- On a fresh full-symbol encoder append_ascii writes no entry latch: the
loop starts directly at cursor 1 in Upper mode. -/
theorem append_ascii_full_entry (storage s : List Nat) :
    append_ascii (newEncoder storage false) s
      = (encA (s.length + 1)
          { out := storage, i := 1, right := false, mode := 0 } s).map
          (fun st => { storage := (flushA st).out, used := (flushA st).i,
                       micro := false, last_mode := (flushA st).mode }) := rfl

/-- C10: a MicroPDF417 encoder created with new(storage, true) starts with
cursor 0 in Byte mode (5), so its first append_ascii always writes the
latch-to-text codeword 900 into slot 0 before any text codeword and ends with
the cursor at 1 or beyond; a full-symbol encoder starts with cursor 1 in
Upper mode (0) and its first append_ascii leaves slot 0 (the reserved length
indicator) untouched. -/
theorem spec_c10 (storage : List Nat) (h : 0 < storage.length) (s : List Nat) :
    (newEncoder storage true).used = 0 ∧ (newEncoder storage true).last_mode = 5 ∧
    (newEncoder storage false).used = 1 ∧ (newEncoder storage false).last_mode = 0 ∧
    (∀ e', append_ascii (newEncoder storage true) s = some e' →
        e'.storage.getD 0 0 = 900 ∧ 1 ≤ e'.used) ∧
    (∀ e', append_ascii (newEncoder storage false) s = some e' →
        e'.storage.getD 0 0 = storage.getD 0 0 ∧ 1 ≤ e'.used) := by
  refine ⟨rfl, rfl, rfl, rfl, ?_, ?_⟩
  · intro e' he'
    rw [append_ascii_micro_entry] at he'
    rcases Option.map_eq_some'.mp he' with ⟨stF, hrun, he⟩
    subst he
    have hk := encA_keeps 1 (s.length + 1)
      s { out := storage.set 0 900, i := 1, right := false, mode := 0 } stF hrun
      (Nat.le_refl 1)
    have hkf := flushA_keeps 1 stF hk.2
    constructor
    · dsimp only
      rw [hkf.1 0 (by omega), hk.1 0 (by omega)]
      dsimp only
      rw [getD_set_split, if_pos ⟨rfl, h⟩]
    · dsimp only
      exact hkf.2
  · intro e' he'
    rw [append_ascii_full_entry] at he'
    rcases Option.map_eq_some'.mp he' with ⟨stF, hrun, he⟩
    subst he
    have hk := encA_keeps 1 (s.length + 1)
      s { out := storage, i := 1, right := false, mode := 0 } stF hrun
      (Nat.le_refl 1)
    have hkf := flushA_keeps 1 stF hk.2
    constructor
    · dsimp only
      rw [hkf.1 0 (by omega), hk.1 0 (by omega)]
    · dsimp only
      exact hkf.2

/-- Witness for spec_c10 on a 3-slot buffer and the input "A". -/
theorem spec_c10_witness :
    (newEncoder [0, 0, 0] true).used = 0 ∧ (newEncoder [0, 0, 0] true).last_mode = 5 ∧
    (newEncoder [0, 0, 0] false).used = 1 ∧ (newEncoder [0, 0, 0] false).last_mode = 0 ∧
    (∀ e', append_ascii (newEncoder [0, 0, 0] true) [65] = some e' →
        e'.storage.getD 0 0 = 900 ∧ 1 ≤ e'.used) ∧
    (∀ e', append_ascii (newEncoder [0, 0, 0] false) [65] = some e' →
        e'.storage.getD 0 0 = ([0, 0, 0] : List Nat).getD 0 0 ∧ 1 ≤ e'.used) :=
  spec_c10 [0, 0, 0] (by decide) [65]

end PDF417V

namespace PDF417V

/-! ## The codeword-range invariant (C9)

Starting from a zero-initialized buffer, every value any append operation
writes is a valid codeword (at most 928): packed text pairs are at most
29*30+29 = 899, base-900 remainders at most 899, raw bytes at most 255, and
the latch/shift/ECI codewords 900-927 are below 929.  The loop invariant also
tracks that the slot under a pending half holds at most 29 and that every
slot beyond the cursor is still zero (which is what keeps the byte-fallback
path safe even though it leaves the pending-half flag set). -/

def AInv (st : AsciiSt) : Prop :=
  (∀ j, st.out.getD j 0 ≤ 928) ∧
  (st.right = true → st.out.getD st.i 0 ≤ 29) ∧
  (∀ j, st.i < j → st.out.getD j 0 = 0) ∧
  (st.right = false → st.out.getD st.i 0 = 0)

theorem set_getD_le (l : List Nat) (m v : Nat) (hv : v ≤ 928)
    (h : ∀ j, l.getD j 0 ≤ 928) : ∀ j, (l.set m v).getD j 0 ≤ 928 := by
  intro j
  rw [getD_set_split]
  split
  · exact hv
  · exact h j

theorem pushA_inv (st : AsciiSt) (cw : Nat) (hcw : cw ≤ 29) (h : AInv st) :
    AInv (pushA st cw) := by
  obtain ⟨h1, h2, h3, h4⟩ := h
  rw [AInv, pushA]
  by_cases hr : st.right = true
  · rw [if_pos hr]
    refine ⟨?_, ?_, ?_, ?_⟩
    · dsimp only
      exact set_getD_le _ _ _ (by have := h2 hr; omega) h1
    · dsimp only
      intro hcon
      exact absurd hcon (by simp)
    · dsimp only
      intro j hj
      rw [getD_set_split]
      rw [if_neg (by intro hh; omega)]
      exact h3 j (by omega)
    · dsimp only
      intro _
      rw [getD_set_split, if_neg (by intro hh; omega)]
      exact h3 _ (by omega)
  · rw [if_neg hr]
    refine ⟨?_, ?_, ?_, ?_⟩
    · dsimp only
      exact set_getD_le _ _ _ (by omega) h1
    · dsimp only
      intro _
      rw [getD_set_split]
      split
      · exact hcw
      · have h0 := h4 (by simpa using hr)
        omega
    · dsimp only
      intro j hj
      rw [getD_set_split, if_neg (by intro hh; omega)]
      exact h3 j hj
    · dsimp only
      intro hcon
      exact absurd hcon (by simp)

theorem flushA_inv (st : AsciiSt) (h : AInv st) : AInv (flushA st) := by
  obtain ⟨h1, h2, h3, h4⟩ := h
  rw [AInv, flushA]
  by_cases hr : st.right = true
  · rw [if_pos hr]
    refine ⟨?_, ?_, ?_, ?_⟩
    · dsimp only
      exact set_getD_le _ _ _ (by have := h2 hr; omega) h1
    · dsimp only
      intro hcon
      exact absurd hcon (by simp)
    · dsimp only
      intro j hj
      rw [getD_set_split, if_neg (by intro hh; omega)]
      exact h3 j (by omega)
    · dsimp only
      intro _
      rw [getD_set_split, if_neg (by intro hh; omega)]
      exact h3 _ (by omega)
  · rw [if_neg hr]
    exact ⟨h1, h2, h3, h4⟩

theorem flushA_right (st : AsciiSt) : (flushA st).right = false := by
  rw [flushA]
  split
  · rfl
  · rename_i hr
    simpa using hr

theorem pushSpA_inv (st : AsciiSt) (cw : Nat) (hcw : cw ≤ 928) (h : AInv st) :
    AInv (pushSpA st cw) := by
  have hf := flushA_inv st h
  have hfr := flushA_right st
  obtain ⟨h1, h2, h3, h4⟩ := hf
  have heq : pushSpA st cw =
      { out := (flushA st).out.set (flushA st).i cw, i := (flushA st).i + 1,
        right := (flushA st).right, mode := (flushA st).mode } := by
    rw [pushSpA, flushA]
  rw [heq, AInv]
  refine ⟨?_, ?_, ?_, ?_⟩
  · dsimp only
    exact set_getD_le _ _ _ hcw h1
  · dsimp only
    rw [hfr]
    intro hcon
    exact absurd hcon (by simp)
  · dsimp only
    intro j hj
    rw [getD_set_split, if_neg (by intro hh; omega)]
    exact h3 j (by omega)
  · dsimp only
    intro _
    rw [getD_set_split, if_neg (by intro hh; omega)]
    exact h3 _ (by omega)

theorem setMode_inv (st : AsciiSt) (m : Nat) (h : AInv st) : AInv (setMode st m) := h

theorem foldl_pushA_inv : ∀ (l : List Nat) (st : AsciiSt),
    (∀ d ∈ l, d - 48 ≤ 29) → AInv st →
    AInv (l.foldl (fun s d => pushA s (d - 48)) st) := by
  intro l
  induction l with
  | nil => intro st _ h; exact h
  | cons d rest ih =>
    intro st hd h
    rw [List.foldl_cons]
    exact ih (pushA st (d - 48))
      (fun x hx => hd x (List.mem_cons_of_mem _ hx))
      (pushA_inv st (d - 48) (hd d (List.mem_cons_self d rest)) h)

theorem b900Write_getD_le : ∀ (fuel : Nat) (st : List Nat) (pos nb count n : Nat),
    (∀ j, st.getD j 0 ≤ 928) →
    ∀ j, (b900Write fuel st pos nb count n).getD j 0 ≤ 928 := by
  intro fuel
  induction fuel with
  | zero => intro st pos nb count n h j; rw [b900Write]; exact h j
  | succ fuel ih =>
    intro st pos nb count n h j
    rw [b900Write]
    split
    · exact h j
    · exact ih _ pos nb (count + 1) (n / 900)
        (set_getD_le _ _ _ (by have := Nat.mod_lt n (by omega : 0 < 900); omega) h) j

theorem b900Write_above : ∀ (fuel : Nat) (st : List Nat) (pos nb count n : Nat),
    0 < nb → ∀ j, pos + nb ≤ j →
    (b900Write fuel st pos nb count n).getD j 0 = st.getD j 0 := by
  intro fuel
  induction fuel with
  | zero => intro st pos nb count n _ j _; rw [b900Write]
  | succ fuel ih =>
    intro st pos nb count n hnb j hj
    rw [b900Write]
    split
    · rfl
    · rw [ih _ pos nb (count + 1) (n / 900) hnb j hj]
      rw [getD_set_split, if_neg (by intro hh; omega)]

end PDF417V

namespace PDF417V

/-- Each loop iteration preserves the codeword-range invariant and continues
on a suffix of the remaining input. -/
theorem encStep_inv (st : AsciiSt) (c : Nat) (rest : List Nat)
    (hc : c < 256) (h : AInv st) :
    ∀ st1 rest1, encStep st c rest = some (st1, rest1) →
      AInv st1 ∧ rest1 ⊆ rest := by
  intro st1 rest1 hstep
  have hpp : ∀ (s : AsciiSt) (a b : Nat), a ≤ 29 → b ≤ 29 → AInv s →
      AInv (pushA (pushA s a) b) :=
    fun s a b ha hb hs => pushA_inv _ b hb (pushA_inv s a ha hs)
  simp only [encStep] at hstep
  split at hstep
  · -- uppercase
    rename_i hU
    have hc65 : c - 65 ≤ 29 := by
      rw [isUpper] at hU; simp at hU; omega
    split at hstep
    · injection hstep with hstep
      injection hstep with h1 h2
      subst h1; subst h2
      exact ⟨pushA_inv st _ hc65 h, List.Subset.refl _⟩
    · injection hstep with hstep
      injection hstep with h1 h2
      subst h1; subst h2
      refine ⟨?_, List.Subset.refl _⟩
      split
      · exact pushA_inv _ _ hc65 (pushA_inv st 27 (by omega) h)
      · exact pushA_inv _ _ hc65 (hpp st 29 29 (by omega) (by omega) h)
    · injection hstep with hstep
      injection hstep with h1 h2
      subst h1; subst h2
      exact ⟨pushA_inv _ _ hc65 (pushA_inv st 28 (by omega) h), List.Subset.refl _⟩
    · injection hstep with hstep
      injection hstep with h1 h2
      subst h1; subst h2
      exact ⟨pushA_inv _ _ hc65 (pushA_inv st 29 (by omega) h), List.Subset.refl _⟩
    · exact absurd hstep (by simp)
  · split at hstep
    · -- lowercase
      rename_i hL
      have hc97 : c - 97 ≤ 29 := by
        rw [isLower] at hL; simp at hL; omega
      split at hstep
      · injection hstep with hstep
        injection hstep with h1 h2
        subst h1; subst h2
        exact ⟨pushA_inv _ _ hc97 (pushA_inv st 27 (by omega) h), List.Subset.refl _⟩
      · injection hstep with hstep
        injection hstep with h1 h2
        subst h1; subst h2
        exact ⟨pushA_inv _ _ hc97 (pushA_inv st 27 (by omega) h), List.Subset.refl _⟩
      · injection hstep with hstep
        injection hstep with h1 h2
        subst h1; subst h2
        exact ⟨pushA_inv st _ hc97 h, List.Subset.refl _⟩
      · injection hstep with hstep
        injection hstep with h1 h2
        subst h1; subst h2
        exact ⟨pushA_inv _ _ hc97 (hpp st 29 27 (by omega) (by omega) h),
          List.Subset.refl _⟩
      · exact absurd hstep (by simp)
    · split at hstep
      · -- digit
        rename_i hD
        have hrun : ∀ d ∈ c :: rest.take (digitsRun 43 rest), d - 48 ≤ 29 := by
          intro d hd
          rcases List.mem_cons.mp hd with h' | h'
          · subst h'
            rw [isDigit] at hD; simp at hD; omega
          · have := digitsRun_take 43 rest d h'
            rw [isDigit] at this; simp at this; omega
        split at hstep
        · -- short run
          split at hstep
          · simp only [Option.map_some'] at hstep
            injection hstep with hstep
            injection hstep with h1 h2
            subst h1; subst h2
            exact ⟨foldl_pushA_inv _ _ hrun (pushA_inv st 28 (by omega) h),
              List.drop_subset _ _⟩
          · simp only [Option.map_some'] at hstep
            injection hstep with hstep
            injection hstep with h1 h2
            subst h1; subst h2
            exact ⟨foldl_pushA_inv _ _ hrun (pushA_inv st 28 (by omega) h),
              List.drop_subset _ _⟩
          · simp only [Option.map_some'] at hstep
            injection hstep with hstep
            injection hstep with h1 h2
            subst h1; subst h2
            exact ⟨foldl_pushA_inv _ _ hrun h, List.drop_subset _ _⟩
          · simp only [Option.map_some'] at hstep
            injection hstep with hstep
            injection hstep with h1 h2
            subst h1; subst h2
            exact ⟨foldl_pushA_inv _ _ hrun
              (pushA_inv _ 28 (by omega) (pushA_inv st 29 (by omega) h)),
              List.drop_subset _ _⟩
          · simp only [Option.map_none'] at hstep
            exact absurd hstep (by simp)
        · -- long run, base-900 path
          injection hstep with hstep
          injection hstep with h1 h2
          subst h1; subst h2
          refine ⟨?_, List.drop_subset _ _⟩
          have hk1 : AInv (if st.mode ≠ 4 then setMode (pushSpA st 902) 4 else st) := by
            split
            · exact pushSpA_inv st 902 (by omega) h
            · exact h
          set stL := if st.mode ≠ 4 then setMode (pushSpA st 902) 4 else st with hstL
          obtain ⟨k1, k2, k3, k4⟩ := hk1
          set nb := (digitsRun 43 rest + 1) / 3 + 1 with hnb
          have hnb1 : 0 < nb := by omega
      
      
        
          have hk2 : AInv
              ({ out := b900Write 64 stL.out stL.i nb 0
                   ((parseDec (c :: rest.take (digitsRun 43 rest)) +
                     mul5 (digitsRun 43 rest + 1)
                       (2 ^ (digitsRun 43 rest + 1) % 2 ^ 160)) % 2 ^ 160),
                 i := stL.i + nb, right := stL.right, mode := stL.mode } : AsciiSt) := by
            refine ⟨?_, ?_, ?_, ?_⟩
            · dsimp only
              exact b900Write_getD_le 64 stL.out stL.i nb 0 _ k1
            · dsimp only
              intro hr
              rw [b900Write_above 64 stL.out stL.i nb 0 _ hnb1 _ (Nat.le_refl _)]
              rw [k3 _ (by omega)]
              omega
            · dsimp only
              intro j hj
              rw [b900Write_above 64 stL.out stL.i nb 0 _ hnb1 _ (by omega)]
              exact k3 _ (by omega)
            · dsimp only
              intro hr
              rw [b900Write_above 64 stL.out stL.i nb 0 _ hnb1 _ (Nat.le_refl _)]
              exact k3 _ (by omega)
          split
          · exact pushSpA_inv _ 900 (by omega) hk2
          · exact hk2
      · split at hstep
        · -- space
          injection hstep with hstep
          injection hstep with h1 h2
          subst h1; subst h2
          refine ⟨?_, List.Subset.refl _⟩
          split
          · exact pushA_inv _ 26 (by omega) (pushA_inv st 29 (by omega) h)
          · exact pushA_inv st 26 (by omega) h
        · split at hstep
          · -- mixed hit
            rename_i p hfind
            have hp : p + 10 ≤ 29 := by
              have := List.findIdx?_eq_some_iff_findIdx_eq.mp hfind |>.1
              rw [MIXED_SET] at this
              simp at this
              omega
            split at hstep
            · simp only [Option.map_some'] at hstep
              injection hstep with hstep
              injection hstep with h1 h2
              subst h1; subst h2
              exact ⟨pushA_inv _ _ hp (pushA_inv st 28 (by omega) h), List.Subset.refl _⟩
            · simp only [Option.map_some'] at hstep
              injection hstep with hstep
              injection hstep with h1 h2
              subst h1; subst h2
              exact ⟨pushA_inv _ _ hp (pushA_inv st 28 (by omega) h), List.Subset.refl _⟩
            · simp only [Option.map_some'] at hstep
              injection hstep with hstep
              injection hstep with h1 h2
              subst h1; subst h2
              exact ⟨pushA_inv st _ hp h, List.Subset.refl _⟩
            · split at hstep
              · simp only [Option.map_some'] at hstep
                injection hstep with hstep
                injection hstep with h1 h2
                subst h1; subst h2
                exact ⟨pushA_inv st _ hp h, List.Subset.refl _⟩
              · simp only [Option.map_some'] at hstep
                injection hstep with hstep
                injection hstep with h1 h2
                subst h1; subst h2
                exact ⟨pushA_inv _ _ hp
                  (pushA_inv _ 28 (by omega) (pushA_inv st 29 (by omega) h)),
                  List.Subset.refl _⟩
            · simp only [Option.map_none'] at hstep
              exact absurd hstep (by simp)
          · -- punctuation or fallback
            split at hstep
            · rename_i p hfind
              have hp : p ≤ 29 := by
                have := List.findIdx?_eq_some_iff_findIdx_eq.mp hfind |>.1
                rw [PUNC_SET] at this
                simp at this
                omega
              split at hstep
              · split at hstep
                · injection hstep with hstep
                  injection hstep with h1 h2
                  subst h1; subst h2
                  refine ⟨?_, List.Subset.refl _⟩
                  have hk1 : AInv (if st.mode ≠ 2 then pushA st 28 else st) := by
                    split
                    · exact pushA_inv st 28 (by omega) h
                    · exact h
                  exact pushA_inv _ _ hp (pushA_inv _ 25 (by omega) hk1)
                · injection hstep with hstep
                  injection hstep with h1 h2
                  subst h1; subst h2
                  exact ⟨pushA_inv _ _ hp (pushA_inv st 29 (by omega) h),
                    List.Subset.refl _⟩
              · injection hstep with hstep
                injection hstep with h1 h2
                subst h1; subst h2
                exact ⟨pushA_inv st _ hp h, List.Subset.refl _⟩
            · -- byte fallback
              injection hstep with hstep
              injection hstep with h1 h2
              subst h1; subst h2
              refine ⟨?_, List.Subset.refl _⟩
              have hf := flushA_inv st h
              obtain ⟨f1, f2, f3, f4⟩ := hf
              refine ⟨?_, ?_, ?_, ?_⟩
              · dsimp only
                exact set_getD_le _ _ _ (by omega)
                  (set_getD_le _ _ _ (by omega) f1)
              · dsimp only
                intro _
                rw [getD_set_split, if_neg (by intro hh; omega),
                  getD_set_split, if_neg (by intro hh; omega)]
                rw [f3 _ (by omega)]
                omega
              · dsimp only
                intro j hj
                rw [getD_set_split, if_neg (by intro hh; omega),
                  getD_set_split, if_neg (by intro hh; omega)]
                exact f3 _ (by omega)
              · dsimp only
                intro _
                rw [getD_set_split, if_neg (by intro hh; omega),
                  getD_set_split, if_neg (by intro hh; omega)]
                exact f3 _ (by omega)

end PDF417V

namespace PDF417V

theorem encA_inv : ∀ (fuel : Nat) (s : List Nat) (st stF : AsciiSt),
    encA fuel st s = some stF → AInv st → (∀ x ∈ s, x < 256) → AInv stF := by
  intro fuel
  induction fuel with
  | zero =>
    intro s st stF hrun _ _
    rw [encA] at hrun
    exact absurd hrun (by simp)
  | succ fuel ih =>
    intro s st stF hrun h hs
    cases s with
    | nil =>
      rw [encA] at hrun
      injection hrun with h1
      subst h1
      exact h
    | cons c rest =>
      rw [encA] at hrun
      cases hst : encStep st c rest with
      | none =>
        rw [hst] at hrun
        exact absurd hrun (by simp)
      | some pr =>
        obtain ⟨st1, rest1⟩ := pr
        rw [hst] at hrun
        simp only [Option.bind_some] at hrun
        obtain ⟨hinv1, hsub⟩ := encStep_inv st c rest
          (hs c (List.mem_cons_self c rest)) h st1 rest1 hst
        exact ih rest1 st1 stF hrun hinv1
          (fun x hx => hs x (List.mem_cons_of_mem _ (hsub hx)))

/-- Encoder-level invariant between append calls: every slot holds a valid
codeword and the slots at or beyond the cursor are still zero (true of the
zero-initialized buffers the library is used with). -/
def EncInv (e : Encoder) : Prop :=
  (∀ j, e.storage.getD j 0 ≤ 928) ∧ (∀ j, e.used ≤ j → e.storage.getD j 0 = 0)

theorem append_ascii_inv (e : Encoder) (s : List Nat) (e' : Encoder)
    (h : EncInv e) (hs : ∀ x ∈ s, x < 256)
    (happ : append_ascii e s = some e') : EncInv e' := by
  obtain ⟨h1, h2⟩ := h
  rw [append_ascii] at happ
  set st0 : AsciiSt :=
    { out := e.storage, i := e.used, right := false, mode := e.last_mode } with hst0
  have hie : st0.i = e.used := rfl
  have hinv0 : AInv (if st0.mode = 4 ∨ st0.mode = 5 then
      { out := st0.out.set st0.i 900, i := st0.i + 1, right := false, mode := 0 }
      else st0) := by
    split
    · refine ⟨?_, ?_, ?_, ?_⟩
      · dsimp only
        exact set_getD_le _ _ _ (by omega) h1
      · dsimp only
        intro hcon
        exact absurd hcon (by simp)
      · dsimp only
        intro j hj
        rw [getD_set_split, if_neg (by intro hh; omega)]
        exact h2 j (by omega)
      · dsimp only
        intro _
        rw [getD_set_split, if_neg (by intro hh; omega)]
        exact h2 _ (by omega)
    · exact ⟨h1, by intro hcon; exact absurd hcon (by simp), fun j hj => h2 j (by omega),
        fun _ => h2 _ (Nat.le_refl _)⟩
  rcases Option.map_eq_some'.mp happ with ⟨stF, hrun, he⟩
  subst he
  have hF := encA_inv (s.length + 1) s _ stF hrun hinv0 hs
  have hff := flushA_inv stF hF
  have hfr := flushA_right stF
  obtain ⟨f1, f2, f3, f4⟩ := hff
  refine ⟨f1, ?_⟩
  intro j hj
  rcases Nat.eq_or_lt_of_le hj with hj' | hj'
  · rw [← hj']
    exact f4 hfr
  · exact f3 j hj'

theorem writeFive_getD_le (st : List Nat) (i s : Nat)
    (h : ∀ j, st.getD j 0 ≤ 928) : ∀ j, (writeFive st i s).getD j 0 ≤ 928 := by
  have hm : ∀ (x : Nat), x % 900 ≤ 928 := fun x => by
    have := Nat.mod_lt x (by omega : 0 < 900); omega
  exact set_getD_le _ _ _ (hm _) (set_getD_le _ _ _ (hm _) (set_getD_le _ _ _ (hm _)
    (set_getD_le _ _ _ (hm _) (set_getD_le _ _ _ (hm _) h))))

theorem writeFive_above (st : List Nat) (i s : Nat) :
    ∀ j, i + 5 ≤ j → (writeFive st i s).getD j 0 = st.getD j 0 := by
  intro j hj
  rw [writeFive]
  rw [getD_set_split, if_neg (by intro hh; omega)]
  rw [getD_set_split, if_neg (by intro hh; omega)]
  rw [getD_set_split, if_neg (by intro hh; omega)]
  rw [getD_set_split, if_neg (by intro hh; omega)]
  rw [getD_set_split, if_neg (by intro hh; omega)]

theorem packSix_spec : ∀ (N : Nat) (bytes st : List Nat) (i : Nat),
    bytes.length ≤ N → (∀ j, st.getD j 0 ≤ 928) →
    (∀ j, (packSix st i bytes).1.getD j 0 ≤ 928) ∧
    i ≤ (packSix st i bytes).2.1 ∧
    (∀ j, (packSix st i bytes).2.1 ≤ j → (packSix st i bytes).1.getD j 0 = st.getD j 0) ∧
    (packSix st i bytes).2.2 ⊆ bytes := by
  intro N
  induction N with
  | zero =>
    intro bytes st i hlen h
    have : bytes = [] := List.length_eq_zero.mp (by omega)
    subst this
    exact ⟨h, Nat.le_refl _, fun _ _ => rfl, List.Subset.refl _⟩
  | succ N ih =>
    intro bytes st i hlen h
    match bytes with
    | [] => exact ⟨h, Nat.le_refl _, fun _ _ => rfl, List.Subset.refl _⟩
    | [b0] => exact ⟨h, Nat.le_refl _, fun _ _ => rfl, List.Subset.refl _⟩
    | [b0, b1] => exact ⟨h, Nat.le_refl _, fun _ _ => rfl, List.Subset.refl _⟩
    | [b0, b1, b2] => exact ⟨h, Nat.le_refl _, fun _ _ => rfl, List.Subset.refl _⟩
    | [b0, b1, b2, b3] =>
      exact ⟨h, Nat.le_refl _, fun _ _ => rfl, List.Subset.refl _⟩
    | [b0, b1, b2, b3, b4] =>
      exact ⟨h, Nat.le_refl _, fun _ _ => rfl, List.Subset.refl _⟩
    | b0 :: b1 :: b2 :: b3 :: b4 :: b5 :: rest =>
      have hred : packSix st i (b0 :: b1 :: b2 :: b3 :: b4 :: b5 :: rest)
          = packSix (writeFive st i
              ((((((((((b0 <<< 8) + b1) <<< 8) + b2) <<< 8) + b3) <<< 8) + b4) <<< 8) + b5))
              (i + 5) rest := rfl
      rw [hred]
      have hWle := writeFive_getD_le st i
        ((((((((((b0 <<< 8) + b1) <<< 8) + b2) <<< 8) + b3) <<< 8) + b4) <<< 8) + b5) h
      have hrest : rest.length ≤ N := by
        simp only [List.length_cons] at hlen
        omega
      obtain ⟨p1, p2, p3, p4⟩ := ih rest (writeFive st i _) (i + 5) hrest hWle
      refine ⟨p1, by omega, ?_, ?_⟩
      · intro j hj
        rw [p3 j hj, writeFive_above st i _ j (by omega)]
      · intro b hbm
        have := p4 hbm
        exact List.mem_cons_of_mem _ (List.mem_cons_of_mem _ (List.mem_cons_of_mem _
          (List.mem_cons_of_mem _ (List.mem_cons_of_mem _ (List.mem_cons_of_mem _ this)))))

theorem writeRest_spec : ∀ (bytes st : List Nat) (i : Nat),
    (∀ b ∈ bytes, b < 256) → (∀ j, st.getD j 0 ≤ 928) →
    (∀ j, (writeRest st i bytes).1.getD j 0 ≤ 928) ∧
    i ≤ (writeRest st i bytes).2 ∧
    (∀ j, (writeRest st i bytes).2 ≤ j → (writeRest st i bytes).1.getD j 0 = st.getD j 0) := by
  intro bytes
  induction bytes with
  | nil =>
    intro st i _ h
    rw [writeRest]
    exact ⟨h, Nat.le_refl _, fun _ _ => rfl⟩
  | cons b rest ih =>
    intro st i hb h
    rw [writeRest]
    have hble : b ≤ 928 := by have := hb b (List.mem_cons_self b rest); omega
    obtain ⟨p1, p2, p3⟩ := ih (st.set i b) (i + 1)
      (fun x hx => hb x (List.mem_cons_of_mem _ hx)) (set_getD_le _ _ _ hble h)
    refine ⟨p1, by omega, ?_⟩
    intro j hj
    rw [p3 j hj, getD_set_split, if_neg (by intro hh; omega)]

theorem append_bytes_inv (e : Encoder) (bytes : List Nat)
    (h : EncInv e) (hb : ∀ b ∈ bytes, b < 256) : EncInv (append_bytes e bytes) := by
  obtain ⟨h1, h2⟩ := h
  rw [append_bytes]
  split
  · set latch := if bytes.length % 6 = 0 then 924 else 901 with hlatch
    have hlle : latch ≤ 928 := by rw [hlatch]; split <;> omega
    have hset := set_getD_le e.storage e.used latch hlle h1
    obtain ⟨p1, p2, p3, p4⟩ := packSix_spec bytes.length bytes _ (e.used + 1)
      (Nat.le_refl _) hset
    have hsubrest : ∀ b ∈ (packSix (e.storage.set e.used latch) (e.used + 1) bytes).2.2,
        b < 256 := by
      intro b hbm
      exact hb b (p4 hbm)
    obtain ⟨q1, q2, q3⟩ := writeRest_spec _ _ _ hsubrest p1
    refine ⟨q1, ?_⟩
    intro j hj
    dsimp only at hj ⊢
    rw [q3 j hj, p3 j (by omega)]
    rw [getD_set_split, if_neg (by intro hh; omega)]
    exact h2 j (by omega)
  · set st := if e.last_mode < 4 then e.storage.set e.used 913
      else e.storage.set e.used 901 with hst
    have hset : ∀ j, st.getD j 0 ≤ 928 := by
      rw [hst]; split
      · exact set_getD_le _ _ _ (by omega) h1
      · exact set_getD_le _ _ _ (by omega) h1
    have hstub : ∀ j, e.used + 1 ≤ j → st.getD j 0 = 0 := by
      intro j hj
      rw [hst]
      split
      · rw [getD_set_split, if_neg (by intro hh; omega)]; exact h2 j (by omega)
      · rw [getD_set_split, if_neg (by intro hh; omega)]; exact h2 j (by omega)
    obtain ⟨q1, q2, q3⟩ := writeRest_spec bytes st (e.used + 1) hb hset
    refine ⟨q1, ?_⟩
    intro j hj
    dsimp only at hj ⊢
    rw [q3 j hj]
    exact hstub j (by omega)

end PDF417V

namespace PDF417V

theorem append_num_eq (e : Encoder) (n : Nat) :
    append_num e n =
      { storage := b900Write 64
          (if e.last_mode ≠ 4 then e.storage.set e.used 902 else e.storage)
          (if e.last_mode ≠ 4 then e.used + 1 else e.used)
          ((digitsP1 64 n 1 0).1 / 3 + 1) 0
          ((n + ((digitsP1 64 n 1 0).2 <<< (digitsP1 64 n 1 0).1) % 2 ^ 64) % 2 ^ 64),
        used := (if e.last_mode ≠ 4 then e.used + 1 else e.used)
          + ((digitsP1 64 n 1 0).1 / 3 + 1),
        micro := e.micro,
        last_mode := if e.last_mode ≠ 4 then 4 else e.last_mode } := rfl

theorem append_num_inv (e : Encoder) (n : Nat) (h : EncInv e) :
    EncInv (append_num e n) := by
  obtain ⟨h1, h2⟩ := h
  rw [append_num_eq]
  have hst0 : ∀ j,
      (if e.last_mode ≠ 4 then e.storage.set e.used 902 else e.storage).getD j 0 ≤ 928 := by
    split
    · exact set_getD_le _ _ _ (by omega) h1
    · exact h1
  refine ⟨?_, ?_⟩
  · intro j
    exact b900Write_getD_le 64 _ _ _ 0 _ hst0 j
  · intro j hj
    dsimp only at hj ⊢
    rw [b900Write_above 64 _ _ _ 0 _ (by omega) j (by omega)]
    split
    · rename_i hm
      rw [getD_set_split, if_neg (by intro hh; split at hj; all_goals omega)]
      exact h2 j (by split at hj; all_goals omega)
    · exact h2 j (by split at hj; all_goals omega)

theorem append_utf8_inv (e : Encoder) (bytes : List Nat)
    (h : EncInv e) (hb : ∀ b ∈ bytes, b < 256) : EncInv (append_utf8 e bytes) := by
  obtain ⟨h1, h2⟩ := h
  rw [append_utf8]
  refine append_bytes_inv _ bytes ⟨?_, ?_⟩ hb
  · dsimp only
    exact set_getD_le _ _ _ (by omega) (set_getD_le _ _ _ (by omega) h1)
  · dsimp only
    intro j hj
    rw [getD_set_split, if_neg (by intro hh; omega),
      getD_set_split, if_neg (by intro hh; omega)]
    exact h2 j (by omega)

/-- One chainable append operation of the encoder builder (claim C9). -/
inductive EncOp where
  | ascii (s : List Nat)
  | num (n : Nat)
  | bytes (bs : List Nat)
  | utf8 (bs : List Nat)
  deriving Repr, DecidableEq

def applyOp (e : Encoder) : EncOp → Option Encoder
  | EncOp.ascii s => append_ascii e s
  | EncOp.num n => some (append_num e n)
  | EncOp.bytes bs => some (append_bytes e bs)
  | EncOp.utf8 bs => some (append_utf8 e bs)

/-- The inputs are byte strings (u8 in Rust). -/
def opOk : EncOp → Prop
  | EncOp.ascii s => ∀ x ∈ s, x < 256
  | EncOp.num _ => True
  | EncOp.bytes bs => ∀ x ∈ bs, x < 256
  | EncOp.utf8 bs => ∀ x ∈ bs, x < 256

def applyOps (e : Encoder) : List EncOp → Option Encoder
  | [] => some e
  | op :: rest => (applyOp e op).bind (fun e2 => applyOps e2 rest)

theorem applyOp_inv (e : Encoder) (op : EncOp) (e' : Encoder)
    (h : EncInv e) (hok : opOk op) (happ : applyOp e op = some e') : EncInv e' := by
  cases op with
  | ascii s => exact append_ascii_inv e s e' h hok happ
  | num n =>
    rw [applyOp] at happ
    injection happ with happ
    subst happ
    exact append_num_inv e n h
  | bytes bs =>
    rw [applyOp] at happ
    injection happ with happ
    subst happ
    exact append_bytes_inv e bs h hok
  | utf8 bs =>
    rw [applyOp] at happ
    injection happ with happ
    subst happ
    exact append_utf8_inv e bs h hok

theorem applyOps_inv : ∀ (ops : List EncOp) (e e' : Encoder),
    EncInv e → (∀ op ∈ ops, opOk op) → applyOps e ops = some e' → EncInv e' := by
  intro ops
  induction ops with
  | nil =>
    intro e e' h _ happ
    rw [applyOps] at happ
    injection happ with happ
    subst happ
    exact h
  | cons op rest ih =>
    intro e e' h hok happ
    rw [applyOps] at happ
    cases hop : applyOp e op with
    | none => rw [hop] at happ; exact absurd happ (by simp)
    | some e2 =>
      rw [hop] at happ
      have happ2 : applyOps e2 rest = some e' := happ
      exact ih e2 e'
        (applyOp_inv e op e2 h (hok op (List.mem_cons_self op rest)) hop)
        (fun x hx => hok x (List.mem_cons_of_mem _ hx)) happ2

/-- C9: starting from an encoder over a zero-initialized buffer, any sequence
of append_ascii / append_num / append_bytes / append_utf8 calls (with byte
inputs below 256, as in Rust) that completes leaves every storage slot in the
used region holding a valid codeword value in [0, 928]: packed text pairs are
at most 899, base-900 remainders at most 899, raw bytes at most 255, and the
latch/shift/ECI codewords 900-927 are below 929; no append operation ever
writes a value outside the codeword range. -/
theorem spec_c9 (e : Encoder) (ops : List EncOp)
    (hinv : EncInv e) (hok : ∀ op ∈ ops, opOk op) :
    ∀ e', applyOps e ops = some e' →
      ∀ j, j < e'.used → e'.storage.getD j 0 ≤ 928 := by
  intro e' happ j _
  exact (applyOps_inv ops e e' hinv hok happ).1 j

theorem replicate_zero_getD (n j : Nat) :
    (List.replicate n (0 : Nat)).getD j 0 = 0 := by
  rw [List.getD_eq_getD_get?, List.get?_eq_getElem?]
  simp

/-- Witness for spec_c9: a fresh full-symbol encoder over a 12-slot zeroed
buffer, followed by an ASCII segment "Test", a numeric segment and a byte
segment; the used region of the resulting encoder (cursor 10) holds only
valid codewords. -/
theorem spec_c9_witness :
    applyOps (newEncoder (List.replicate 12 0) false)
        [EncOp.ascii [84, 101, 115, 116], EncOp.num 42, EncOp.bytes [1, 2, 254]]
      = some { storage := [0, 597, 138, 599, 902, 142, 901, 1, 2, 254, 0, 0],
               used := 10, micro := false, last_mode := 5 } ∧
    (∀ j, j < ({ storage := [0, 597, 138, 599, 902, 142, 901, 1, 2, 254, 0, 0],
                 used := 10, micro := false, last_mode := 5 } : Encoder).used →
      ({ storage := [0, 597, 138, 599, 902, 142, 901, 1, 2, 254, 0, 0],
         used := 10, micro := false, last_mode := 5 } : Encoder).storage.getD j 0 ≤ 928) :=
  ⟨by decide,
   fun j hj =>
     spec_c9 (newEncoder (List.replicate 12 0) false)
       [EncOp.ascii [84, 101, 115, 116], EncOp.num 42, EncOp.bytes [1, 2, 254]]
       ⟨fun j => by
           show (List.replicate 12 (0 : Nat)).getD j 0 ≤ 928
           rw [replicate_zero_getD]
           omega,
        fun j _ => by
           show (List.replicate 12 (0 : Nat)).getD j 0 = 0
           rw [replicate_zero_getD]⟩
       (by intro op hop; fin_cases hop <;> simp [opOk])
       { storage := [0, 597, 138, 599, 902, 142, 901, 1, 2, 254, 0, 0],
         used := 10, micro := false, last_mode := 5 }
       (by decide) j hj⟩

end PDF417V

namespace PDF417V

/-! ## The renderer (src/src/lib.rs lines 494-548)

PDF417::render walks the codeword slice with a column counter, a row counter
and a cluster-table index cycling 0,1,2.  At the start of a row it emits the
17-bit start pattern and the left row indicator; each codeword contributes a
17-bit pattern; at the end of a row it emits either the single truncated stop
bit or the right row indicator followed by the 18-bit end pattern.  The
embedding collects, per completed row, the list of (value, bit count) pairs
handed to RenderTarget::append_bits, and separately folds them into the
boolean module stream of the [bool] target (scale-x replicates each bit,
row_end duplicates each finished row scale-y times).  HL_TO_LL lives in the
absent tables.rs, so the cluster table is a parameter hl. -/

def START : Nat := 0b11111111010101000

def ENDP : Nat := 0b111111101000101001

/-- The cw! macro of src/src/lib.rs lines 416-421: the 16-bit cluster pattern
with a leading one bit. -/
def cwPat (hl : Nat → Nat) (table val : Nat) : Nat := 2 ^ 16 + hl (table * 929 + val)

def leftVal (rows_val cols_val level_val table : Nat) : Nat :=
  match table with
  | 0 => rows_val
  | 1 => level_val
  | _ => cols_val

def rightVal (rows_val cols_val level_val table : Nat) : Nat :=
  match table with
  | 0 => cols_val
  | 1 => rows_val
  | _ => level_val

/-- The codeword loop of PDF417::render, collecting one (value, count) list
per completed row ((col, row, table, cur) mirror the loop state; a partial
trailing row, impossible when codewords.len() = rows*cols, is discarded). -/
def riLoop (hl : Nat → Nat) (cols rows_val cols_val level_val : Nat)
    (truncated : Bool) :
    List Nat → Nat → Nat → Nat → List (Nat × Nat) → List (List (Nat × Nat))
  | [], _, _, _, _ => []
  | cw :: rest, col, row, table, cur =>
      let cur := if col = 0 then
          [((START, 17) : Nat × Nat),
           (cwPat hl table ((row / 3) * 30 + leftVal rows_val cols_val level_val table), 17)]
        else cur
      let cur := cur ++ [(cwPat hl table cw, 17)]
      if col + 1 = cols then
        let cur := cur ++
          (if truncated then [((1, 1) : Nat × Nat)]
           else [(cwPat hl table ((row / 3) * 30 + rightVal rows_val cols_val level_val table), 17),
                 (ENDP, 18)])
        cur :: riLoop hl cols rows_val cols_val level_val truncated rest 0 (row + 1)
          (if table = 2 then 0 else table + 1) []
      else
        riLoop hl cols rows_val cols_val level_val truncated rest (col + 1) row table cur

/-- PDF417::render at the append_bits granularity: the per-row item lists,
with rows_val, cols_val and level_val precomputed as in lines 495-497. -/
def renderItems (hl : Nat → Nat) (codewords : List Nat)
    (rows cols level : Nat) (truncated : Bool) : List (List (Nat × Nat)) :=
  riLoop hl cols ((rows - 1) / 3) (cols - 1) (level * 3 + (rows - 1) % 3) truncated
    codewords 0 0 0 []

/-- The bits of append_bits for the [bool] target (lines 303-312): count bits
of value, most significant first, each replicated scale-x times. -/
def appendBits (sx value count : Nat) : List Bool :=
  ((List.range count).map (fun k => value / 2 ^ (count - 1 - k) % 2 == 1)).flatMap
    (fun b => List.replicate sx b)

/-- The boolean module rows produced by render on a [bool] target: each row's
items flattened at scale-x, the row duplicated scale-y times (row_end, lines
290-301). -/
def renderRows (hl : Nat → Nat) (codewords : List Nat)
    (rows cols level sx sy : Nat) (truncated : Bool) : List (List Bool) :=
  (renderItems hl codewords rows cols level truncated).flatMap
    (fun items => List.replicate sy (items.flatMap (fun p => appendBits sx p.1 p.2)))

/-- The pdf417_width macro of src/src/lib.rs lines 423-441. -/
def pdf417_width (cols scale_x pad : Nat) (truncated : Bool) : Nat :=
  if truncated then (17 + 17 + cols * 17) * scale_x + pad
  else (17 + 17 + cols * 17 + 17 + 18) * scale_x + pad

/-- The pdf417_height macro of src/src/lib.rs lines 443-454. -/
def pdf417_height (rows scale_y pad : Nat) : Nat := rows * scale_y + pad

/-- C6: the height formula matches the renderer, and the width formula
matches for non-truncated symbols, but the truncated width formula misses
the single stop bit the renderer emits at the end of every truncated row:
at rows = 3, cols = 1, level 0, scale (1,1), each rendered truncated row has
52 module columns while pdf417_width claims 51.  (The truncated example of
the crate allocates W*H = 51*3 bools and render writes 52*3, an
out-of-bounds panic.) -/
theorem spec_c6_bug :
    (renderRows (fun _ => 0) [0, 0, 0] 3 1 0 1 1 true).length = pdf417_height 3 1 0 ∧
    (∀ r ∈ renderRows (fun _ => 0) [0, 0, 0] 3 1 0 1 1 true, r.length = 52) ∧
    pdf417_width 1 1 0 true = 51 ∧
    (∀ r ∈ renderRows (fun _ => 0) [0, 0, 0] 3 1 0 1 1 false,
      r.length = pdf417_width 1 1 0 false) ∧
    (renderRows (fun _ => 0) [0, 0, 0] 3 1 0 1 1 false).length = pdf417_height 3 1 0 ∧
    (51 : Nat) ≠ 52 := by
  decide

end PDF417V

namespace PDF417V

theorem riLoop_midrow (hl : Nat → Nat) (cols rv cv lv : Nat) (tr : Bool) :
    ∀ (crest : List Nat) (c : Nat) (rest : List Nat) (col row table : Nat)
      (cur : List (Nat × Nat)),
    col + crest.length + 1 = cols → 1 ≤ col →
    riLoop hl cols rv cv lv tr (c :: (crest ++ rest)) col row table cur =
      (cur ++ (c :: crest).map (fun cw => (cwPat hl table cw, 17)) ++
        (if tr then [((1, 1) : Nat × Nat)]
         else [(cwPat hl table ((row / 3) * 30 + rightVal rv cv lv table), 17),
               (ENDP, 18)]))
      :: riLoop hl cols rv cv lv tr rest 0 (row + 1)
          (if table = 2 then 0 else table + 1) [] := by
  intro crest
  induction crest with
  | nil =>
    intro c rest col row table cur hlen hcol
    simp only [List.length_nil] at hlen
    rw [riLoop]
    simp only [List.nil_append]
    rw [if_neg (by omega : ¬ col = 0), if_pos (by omega : col + 1 = cols)]
    simp [List.append_assoc]
  | cons c2 crest' ih =>
    intro c rest col row table cur hlen hcol
    rw [riLoop]
    rw [if_neg (by omega : ¬ col = 0)]
    simp only [List.cons_append]
    rw [if_neg (by simp only [List.length_cons] at hlen; omega : ¬ col + 1 = cols)]
    rw [ih c2 rest (col + 1) row table (cur ++ [(cwPat hl table c, 17)])
      (by simp only [List.length_cons] at hlen; omega) (by omega)]
    simp [List.append_assoc]

theorem riLoop_row (hl : Nat → Nat) (cols rv cv lv : Nat) (tr : Bool) :
    ∀ (row0 rest : List Nat) (row table : Nat), row0.length = cols →
    1 ≤ cols →
    riLoop hl cols rv cv lv tr (row0 ++ rest) 0 row table [] =
      ([(START, 17),
        (cwPat hl table ((row / 3) * 30 + leftVal rv cv lv table), 17)] ++
        row0.map (fun cw => (cwPat hl table cw, 17)) ++
        (if tr then [((1, 1) : Nat × Nat)]
         else [(cwPat hl table ((row / 3) * 30 + rightVal rv cv lv table), 17),
               (ENDP, 18)]))
      :: riLoop hl cols rv cv lv tr rest 0 (row + 1)
          (if table = 2 then 0 else table + 1) [] := by
  intro row0 rest row table hlen hcols
  cases row0 with
  | nil =>
    exfalso
    simp only [List.length_nil] at hlen
    omega
  | cons c crest =>
    cases crest with
    | nil =>
      have hc1 : cols = 1 := by simpa using hlen.symm
      subst hc1
      rw [List.cons_append, List.nil_append, riLoop]
      rw [if_pos rfl, if_pos rfl]
      simp [List.append_assoc]
    | cons c2 crest' =>
      have hgt : ¬ (0 + 1 = cols) := by
        simp only [List.length_cons] at hlen
        omega
      rw [List.cons_append, riLoop]
      rw [if_pos rfl]
      simp only [List.cons_append]
      rw [if_neg hgt]
      rw [riLoop_midrow hl cols rv cv lv tr crest' c2 rest 1 row table _
        (by simp only [List.length_cons] at hlen; omega) (Nat.le_refl 1)]
      simp [List.append_assoc]

theorem cycle_mod3 (r : Nat) :
    (if r % 3 = 2 then 0 else r % 3 + 1) = (r + 1) % 3 := by
  by_cases h : r % 3 = 2
  · rw [if_pos h]; omega
  · rw [if_neg h]; omega

theorem riLoop_get (hl : Nat → Nat) (cols rv cv lv : Nat) (tr : Bool)
    (hcols : 1 ≤ cols) :
    ∀ (m : Nat) (cws : List Nat) (r : Nat), cws.length = m * cols →
    ∀ d, d < m →
    ∃ rowl, (riLoop hl cols rv cv lv tr cws 0 r (r % 3) []).get? d = some rowl ∧
      rowl.get? 1 = some (cwPat hl ((r + d) % 3)
        (((r + d) / 3) * 30 + leftVal rv cv lv ((r + d) % 3)), 17) ∧
      (tr = false → rowl.get? (cols + 2) = some (cwPat hl ((r + d) % 3)
        (((r + d) / 3) * 30 + rightVal rv cv lv ((r + d) % 3)), 17)) := by
  intro m
  induction m with
  | zero => intro cws r _ d hd; omega
  | succ m ih =>
    intro cws r hlen d hd
    have hlen0 : (cws.take cols).length = cols := by
      rw [List.length_take]
      have : cols ≤ cws.length := by
        rw [hlen]
        calc cols = 1 * cols := by omega
        _ ≤ (m + 1) * cols := Nat.mul_le_mul_right cols (by omega)
      omega
    have hsplit : cws = cws.take cols ++ cws.drop cols :=
      (List.take_append_drop cols cws).symm
    rw [hsplit, riLoop_row hl cols rv cv lv tr _ _ r (r % 3) hlen0 hcols]
    cases d with
    | zero =>
      refine ⟨_, rfl, ?_, ?_⟩
      · simp only [List.cons_append, List.get?_cons_succ, List.get?_cons_zero]
        rw [Nat.add_zero]
      · intro htr
        subst htr
        simp only [List.cons_append, List.nil_append]
        rw [List.get?_cons_succ, List.get?_cons_succ]
        rw [List.get?_append_right (by simp [hlen0] : ((cws.take cols).map
          (fun cw => (cwPat hl (r % 3) cw, 17))).length ≤ cols)]
        simp only [List.length_map, hlen0]
        rw [Nat.sub_self, Nat.add_zero]
        rfl
    | succ d =>
      rw [List.get?_cons_succ]
      rw [cycle_mod3 r]
      have hrest : (cws.drop cols).length = m * cols := by
        rw [List.length_drop, hlen]
        have : (m + 1) * cols = m * cols + cols := by ring
        omega
      obtain ⟨rowl, hget, hleft, hright⟩ := ih (cws.drop cols) (r + 1) hrest d (by omega)
      refine ⟨rowl, hget, ?_, ?_⟩
      · have harith : r + 1 + d = r + (d + 1) := by omega
        rw [harith] at hleft
        exact hleft
      · have harith : r + 1 + d = r + (d + 1) := by omega
        rw [harith] at hright
        exact hright

/-- C5: for every full symbol with rows in [3,90], cols in [1,30], level in
[0,8] and 0-based row index r, with table = r mod 3: the left row indicator
emitted by the renderer is the 17-bit pattern
2^16 + HL_TO_LL[table*929 + (r/3)*30 + v] where v is rows_val for table 0,
level_val for table 1 and cols_val for table 2, and the (non-truncated) right
row indicator uses the complementary permutation (cols_val, rows_val,
level_val) with the same (r/3)*30 offset; here rows_val = (rows-1)/3,
cols_val = cols-1 and level_val = level*3 + (rows-1) mod 3, and the cluster
table HL_TO_LL (from the absent tables.rs) is the parameter hl. -/
theorem spec_c5 (hl : Nat → Nat) (rows cols level r : Nat) (codewords : List Nat)
    (hrows1 : 3 ≤ rows) (hrows2 : rows ≤ 90) (hcols1 : 1 ≤ cols) (hcols2 : cols ≤ 30)
    (hlev : level ≤ 8) (hr : r < rows) (hlen : codewords.length = rows * cols) :
    ∃ rowl, (renderItems hl codewords rows cols level false).get? r = some rowl ∧
      rowl.get? 1 = some (2 ^ 16 + hl ((r % 3) * 929 + ((r / 3) * 30 +
        leftVal ((rows - 1) / 3) (cols - 1) (level * 3 + (rows - 1) % 3) (r % 3))), 17) ∧
      rowl.get? (cols + 2) = some (2 ^ 16 + hl ((r % 3) * 929 + ((r / 3) * 30 +
        rightVal ((rows - 1) / 3) (cols - 1) (level * 3 + (rows - 1) % 3) (r % 3))), 17) := by
  have h0 : (0 : Nat) % 3 = 0 := rfl
  have := riLoop_get hl cols ((rows - 1) / 3) (cols - 1) (level * 3 + (rows - 1) % 3)
    false hcols1 rows codewords 0 hlen r hr
  rw [h0] at this
  obtain ⟨rowl, hget, hleft, hright⟩ := this
  refine ⟨rowl, ?_, ?_, ?_⟩
  · rw [renderItems]
    exact hget
  · rw [Nat.zero_add] at hleft
    rw [hleft]
    rfl
  · rw [Nat.zero_add] at hright
    rw [hright rfl]
    rfl

/-- Witness for spec_c5 at rows = 5, cols = 2, level = 1, row 4 with the
identity cluster table. -/
theorem spec_c5_witness :
    ∃ rowl, (renderItems (fun x => x) (List.replicate 10 0) 5 2 1 false).get? 4
        = some rowl ∧
      rowl.get? 1 = some (2 ^ 16 + (fun x => x) ((4 % 3) * 929 + ((4 / 3) * 30 +
        leftVal ((5 - 1) / 3) (2 - 1) (1 * 3 + (5 - 1) % 3) (4 % 3))), 17) ∧
      rowl.get? (2 + 2) = some (2 ^ 16 + (fun x => x) ((4 % 3) * 929 + ((4 / 3) * 30 +
        rightVal ((5 - 1) / 3) (2 - 1) (1 * 3 + (5 - 1) % 3) (4 % 3))), 17) :=
  spec_c5 (fun x => x) 5 2 1 4 (List.replicate 10 0) (by decide) (by decide)
    (by decide) (by decide) (by decide) (by decide) (by decide)

end PDF417V
